import Mathlib

/-!
Verification model of the ProjectSummarizer ignore-resolution and
aggregated file-tree engine.

The definitions below are a shallow embedding of the Python sources:
* `projectsummarizer/files/discovery/ignore.py` (`IgnorePatternsHandler`),
* `projectsummarizer/files/discovery/discoverer.py` (`FileScanner`),
* `projectsummarizer/files/discovery/binary_detectors/heuristic_binary_detector.py`,
* `projectsummarizer/tokens/counter.py` (`TokenCounter`),
* `projectsummarizer/files/tree/node.py` and `projectsummarizer/files/tree/tree.py`.

Paths are posix strings; inside the tree model a path is represented by its
list of `/`-separated segments.  Machine integers are modelled by `Int`/`Nat`
(Python integers are unbounded, so no wrap-around is involved).
-/

namespace ProjectSummarizer

/-! ## String helpers

Small executable helpers over `String`, written via `List Char` so that the
kernel can evaluate them cheaply.  They model the Python `str` operations
used by the sources (`strip`, `startswith`, slicing, `split("/")`). -/

/-- Characters removed by Python `str.strip()` (ASCII whitespace; the full
Python definition also strips some unicode spaces, which never occur in the
inputs considered here). -/
def isSpaceChar (c : Char) : Bool :=
  c = ' ' || c = '\t' || c = '\n' || c = '\x0d' || c = '\x0b' || c = '\x0c'

/-- Model of Python `s.strip()`. -/
def pyStrip (s : String) : String :=
  (((s.toList.dropWhile isSpaceChar).reverse.dropWhile isSpaceChar).reverse).asString

/-- Model of Python `s.startswith(p)`. -/
def pyStartsWith (s p : String) : Bool :=
  p.toList.isPrefixOf s.toList

/-- Model of Python `s.endswith(p)`. -/
def pyEndsWith (s p : String) : Bool :=
  p.toList.reverse.isPrefixOf s.toList.reverse

/-- Model of Python `s[n:]`. -/
def pyDrop (s : String) (n : Nat) : String :=
  (s.toList.drop n).asString

/-- Model of Python `s[:-n]` for `n ≤ len s`. -/
def pyDropRight (s : String) (n : Nat) : String :=
  (s.toList.take (s.toList.length - n)).asString

/-- Split a list of characters at a separator character. -/
def splitCharsOn (sep : Char) : List Char → List (List Char)
  | [] => [[]]
  | c :: cs =>
    if c = sep then [] :: splitCharsOn sep cs
    else
      match splitCharsOn sep cs with
      | [] => [[c]]
      | seg :: rest => (c :: seg) :: rest

/-- Model of Python `s.split("/")` (and of splitting a posix path into its
segments, as the `pathspec` matcher does internally). -/
def splitSlash (s : String) : List String :=
  (splitCharsOn '/' s.toList).map List.asString

/-! ## Pattern Resolver

Model of the `pathspec` library's `gitwildmatch` patterns, the third-party
matcher that `IgnorePatternsHandler` delegates to
(`PathSpec.from_lines("gitwildmatch", pats)` / `spec.match_file(rel_path)`).
The model covers the pattern subset exercised by this repository: literal
characters, `*` and `?` inside a segment, a whole segment `**`, a leading
`!` (negation), a leading or embedded `/` (anchoring) and a trailing `/`
(directory-only); character classes and backslash escapes are not modelled.
`PathSpec.match_file` applies the patterns in order to the checked path
itself and the last matching pattern decides. -/

/-- Glob match of one pattern segment against one path segment, with an
explicit fuel argument so that the recursion is structural (the fuel is
always large enough, see `globMatch`). -/
def globMatchAux : Nat → List Char → List Char → Bool
  | 0, _, _ => false
  | _ + 1, [], s => s.isEmpty
  | f + 1, '*' :: ps, [] => globMatchAux f ps []
  | f + 1, '*' :: ps, c :: s =>
    globMatchAux f ps (c :: s) || globMatchAux f ('*' :: ps) s
  | _ + 1, _ :: _, [] => false
  | f + 1, '?' :: ps, _ :: s => globMatchAux f ps s
  | f + 1, p :: ps, c :: s => p = c && globMatchAux f ps s

/-- Glob match of one pattern segment against one path segment
(`*` matches any run of characters inside the segment, `?` a single
character).  Each recursive step of `globMatchAux` shortens the pattern or
the candidate, so this fuel never runs out. -/
def globMatch (p s : List Char) : Bool :=
  globMatchAux (p.length + s.length + 1) p s

/-- Fuelled matcher for a list of pattern segments against a prefix of the
path segments, see `matchSegs`. -/
def matchSegsAux (dirOnly : Bool) : Nat → List String → List String → Bool
  | 0, _, _ => false
  | _ + 1, [], [] => !dirOnly
  | _ + 1, [], _ :: _ => true
  | f + 1, "**" :: ps, [] => matchSegsAux dirOnly f ps []
  | f + 1, "**" :: ps, x :: xs =>
    matchSegsAux dirOnly f ps (x :: xs) || matchSegsAux dirOnly f ("**" :: ps) xs
  | _ + 1, _ :: _, [] => false
  | f + 1, p :: ps, x :: xs =>
    globMatch p.toList x.toList && matchSegsAux dirOnly f ps xs

/-- Match a list of pattern segments against a prefix of the path segments.
A fully consumed pattern matches the file itself (unless the pattern was
directory-only) and every file strictly below the matched prefix; a `**`
segment matches any number of path segments.  Each recursive step of
`matchSegsAux` shortens the pattern or the path, so this fuel never runs
out. -/
def matchSegs (dirOnly : Bool) (p s : List String) : Bool :=
  matchSegsAux dirOnly (p.length + s.length + 1) p s

/-- A compiled `gitwildmatch` pattern: `include = none` for null patterns
(blank lines and comments), `some true` for ordinary ignore patterns and
`some false` for `!`-negated ones; `original` keeps the source line (as
`pathspec` keeps `pattern_obj.pattern`). -/
structure GitPattern where
  includes : Option Bool
  anchored : Bool
  dirOnly : Bool
  segs : List String
  original : String
  deriving Repr, DecidableEq

/-- Compile one pattern line, following `pathspec`'s `gitwildmatch` rules for
the modelled subset. -/
def parsePattern (s : String) : GitPattern :=
  if s = "" || pyStartsWith s "#" then ⟨none, false, false, [], s⟩
  else
    let neg := pyStartsWith s "!"
    let body := if neg then pyDrop s 1 else s
    let dirOnly := pyEndsWith body "/"
    let body1 := if dirOnly then pyDropRight body 1 else body
    let anchored := body1.toList.contains '/'
    let body2 := if pyStartsWith body1 "/" then pyDrop body1 1 else body1
    ⟨some (!neg), anchored, dirOnly, splitSlash body2, s⟩

/-- Whether a compiled pattern matches a (file) path.  An anchored pattern is
matched from the root; an unanchored one may start at any directory level
(the `(?:.+/)?` prefix of the generated regular expression). -/
def GitPattern.matches (gp : GitPattern) (path : String) : Bool :=
  let xs := splitSlash path
  if gp.anchored then matchSegs gp.dirOnly gp.segs xs
  else (List.range xs.length).any fun i => matchSegs gp.dirOnly gp.segs (xs.drop i)

/-- Model of `PathSpec.match_file`: fold over the patterns in order; every
matching non-null pattern overwrites the verdict with its `includes` flag, so
the last matching pattern decides (initially the file is not matched). -/
def matchFile (pats : List GitPattern) (path : String) : Bool :=
  pats.foldl
    (fun acc gp =>
      match gp.includes with
      | none => acc
      | some inc => if gp.matches path then inc else acc)
    false

/-- The decision of the last matching rule in a rule list, written directly:
restrict to the non-null patterns that match, take the last one, and return
its polarity (`false` when nothing matches). -/
def lastMatchDecision (pats : List GitPattern) (path : String) : Bool :=
  ((pats.filter fun gp => gp.includes.isSome && gp.matches path).getLast?).elim
    false (fun gp => gp.includes.getD false)

/-! ## IgnorePatternsHandler -/

/-- `IgnorePatternsHandler.DEFAULT_IGNORE_PATTERNS`. -/
def DEFAULT_IGNORE_PATTERNS : List String :=
  [".git", ".env", ".env.local", ".env.*.local", "node_modules", "__pycache__",
   "*.pyc", "*.pyo", ".pytest_cache", ".coverage", "*.log", ".DS_Store",
   "Thumbs.db", ".vscode", ".idea", "*.swp", "*.swo", "*~"]

/-- Model of `IgnorePatternsHandler._read_gitignore_patterns_with_prefixes`.
The input is the list of discovered ignore files in traversal order (root
first, deeper directories next), each as the pair of
`gi.parent.relative_to(self.root).as_posix()` and the lines of the file.
Mirrors the Python double loop, appending one pattern per surviving line. -/
def read_gitignore_patterns (files : List (String × List String)) : List String :=
  files.foldl
    (fun patterns bf =>
      bf.2.foldl
        (fun patterns raw =>
          let s := pyStrip raw
          if s = "" || pyStartsWith s "#" then patterns
          else
            let neg := pyStartsWith s "!"
            let body := if neg then pyDrop s 1 else s
            let prefixed :=
              if bf.1 ≠ "" && bf.1 ≠ "." then bf.1 ++ "/" ++ body else body
            patterns ++ [if neg then "!" ++ prefixed else prefixed])
        patterns)
    []

/-- Model of `IgnorePatternsHandler._compile_spec`: defaults first, then the
patterns read from discovered ignore files, then the user patterns last
("We always add user patterns last so they can override any other
patterns"). -/
def compile_spec (user : List String) (use_defaults read_ignore_files : Bool)
    (gitignorePatterns : List String) : List GitPattern :=
  (((if use_defaults then DEFAULT_IGNORE_PATTERNS else []) ++
    (if read_ignore_files then gitignorePatterns else []) ++
    user).map parsePattern)

/-- One recorded ignore reason (`ignore_reasons` entries built by
`IgnorePatternsHandler.is_ignored` / `_process_pattern_matches`). -/
inductive IgnoreReason where
  | binaryFile (extension : Option String)
  | patternMatch (patterns : List String)
  deriving Repr, DecidableEq

/-- The dictionary returned by `IgnorePatternsHandler.is_ignored`. -/
structure IgnoreData where
  is_ignored : Bool
  is_binary : Bool
  ignore_reasons : List IgnoreReason
  matched_patterns : List String
  binary_extension : Option String
  deriving Repr, DecidableEq

/-- Model of `IgnorePatternsHandler._categorize_matched_patterns`: the
original texts of the positive and of the negated patterns matching the
path. -/
def categorize_matched_patterns (pats : List GitPattern) (rel_path : String) :
    List String × List String :=
  ((pats.filter fun gp => gp.includes = some true && gp.matches rel_path).map
      GitPattern.original,
   (pats.filter fun gp => gp.includes = some false && gp.matches rel_path).map
      GitPattern.original)

/-- Model of `IgnorePatternsHandler._process_pattern_matches` (the statistics
counters are bookkeeping only and are not modelled): returns the appended
ignore reasons together with the returned matching-pattern list. -/
def process_pattern_matches (pats : List GitPattern) (rel_path : String) :
    List IgnoreReason × List String :=
  let is_ignored_by_patterns := matchFile pats rel_path
  let cat := categorize_matched_patterns pats rel_path
  if is_ignored_by_patterns then ([.patternMatch cat.1], cat.1)
  else if cat.2 ≠ [] then ([], cat.2)
  else ([], [])

/-- Model of `IgnorePatternsHandler.is_ignored`.  `is_binary` is the binary
detector's verdict for the file and `ext` stands for
`Path(full_path).suffix.lower()`.  Binary files are handled first: with
`include_binary = false` the method returns early and never evaluates the
patterns, and patterns are evaluated only for non-binary files. -/
def is_ignored (include_binary : Bool) (pats : List GitPattern)
    (is_binary : Bool) (ext : String) (rel_path : String) : IgnoreData :=
  if is_binary && !include_binary then
    { is_ignored := true
      is_binary := true
      ignore_reasons := [.binaryFile (some ext)]
      matched_patterns := []
      binary_extension := some ext }
  else
    let pm := if !is_binary then process_pattern_matches pats rel_path else ([], [])
    { is_ignored := !pm.1.isEmpty
      is_binary := is_binary
      ignore_reasons := pm.1
      matched_patterns := pm.2
      binary_extension := if is_binary then some ext else none }

/-- Model of `FileScanner._should_include_file`. -/
def should_include_file (filter_type : String) (is_ignored : Bool) : Bool :=
  if filter_type = "all" then true
  else if filter_type = "removed" then is_ignored
  else !is_ignored

/-! ### Spec-side reference definitions

The next two definitions are written from the specification's words, not
from the code; they exist only to be compared with the code-derived
definitions above. -/

/-- Modelled from the spec: rule groups combined in the precedence order the
spec asserts — "built-in defaults, then caller-supplied patterns, then
patterns discovered by scanning every ignore file in the tree".  (The code's
`_compile_spec` instead appends the user patterns last.) -/
def spec_claim_order_compile (user : List String)
    (use_defaults read_ignore_files : Bool) (gitignorePatterns : List String) :
    List GitPattern :=
  (((if use_defaults then DEFAULT_IGNORE_PATTERNS else []) ++
    user ++
    (if read_ignore_files then gitignorePatterns else [])).map parsePattern)

/-- Modelled from the spec: the net ignore verdict obtained by "always
evaluating both binary classification and pattern matching and combining
them" — binary-exclusion and pattern-exclusion as independent reasons. -/
def spec_full_eval_is_ignored (include_binary : Bool) (pats : List GitPattern)
    (is_binary : Bool) (rel_path : String) : Bool :=
  (is_binary && !include_binary) || matchFile pats rel_path

/-- Modelled from the spec: the per-line transformation of a discovered
ignore file in directory `base` — blank lines and `#` comments are skipped,
a pattern `p` becomes `base/p` and `!p` becomes `!base/p`, unless `base` is
the scan root, in which case no prefix is added. -/
def spec_scoped_line (base : String) (raw : String) : Option String :=
  let s := pyStrip raw
  if s = "" || pyStartsWith s "#" then none
  else if pyStartsWith s "!" then
    some ("!" ++ (if base ≠ "" && base ≠ "." then base ++ "/" ++ pyDrop s 1
                  else pyDrop s 1))
  else
    some (if base ≠ "" && base ≠ "." then base ++ "/" ++ s else s)

/-! ## Heuristic binary detector

Model of `HeuristicBinaryDetector` (`heuristic_binary_detector.py`).  A byte
sample is a `List Nat` of values `< 256`; `ext` stands for
`os.path.splitext(path)[1].lower()` for a non-empty path. -/

/-- `binary_extensions.BINARY_EXTENSIONS`. -/
def BINARY_EXTENSIONS : List String :=
  [".png", ".jpg", ".jpeg", ".gif", ".bmp", ".ico", ".tiff", ".tif", ".webp",
   ".svg", ".psd", ".ai", ".raw", ".cr2", ".nef", ".orf", ".sr2",
   ".mp4", ".avi", ".mkv", ".mov", ".wmv", ".flv", ".webm", ".m4v", ".mpg",
   ".mpeg", ".mp3", ".wav", ".flac", ".aac", ".ogg", ".wma", ".m4a", ".opus",
   ".zip", ".tar", ".gz", ".bz2", ".xz", ".7z", ".rar", ".jar", ".war",
   ".ear", ".exe", ".dll", ".so", ".dylib", ".bin", ".o", ".a", ".lib",
   ".pyc", ".pyo", ".pyd", ".pdf", ".doc", ".docx", ".xls", ".xlsx", ".ppt",
   ".pptx", ".odt", ".ods", ".odp", ".ttf", ".otf", ".woff", ".woff2",
   ".eot", ".db", ".sqlite", ".sqlite3", ".mdb", ".class", ".dex", ".apk",
   ".ipa", ".dmg", ".iso", ".img", ".pickle", ".pkl", ".npy", ".npz", ".h5",
   ".hdf5", ".parquet", ".avro", ".orc", ".wasm", ".bc"]

/-- Whether a byte is a UTF-8 continuation byte (`0x80–0xBF`). -/
def isCont (b : Nat) : Bool := 0x80 ≤ b && b ≤ 0xBF

/-- Fuelled UTF-8 validity check, modelling whether Python
`data.decode('utf-8')` succeeds (the standard RFC 3629 byte-sequence
table). -/
def utf8ValidAux : Nat → List Nat → Bool
  | 0, _ => false
  | _ + 1, [] => true
  | f + 1, b :: rest =>
    if b ≤ 0x7F then utf8ValidAux f rest
    else if 0xC2 ≤ b && b ≤ 0xDF then
      match rest with
      | c1 :: r => isCont c1 && utf8ValidAux f r
      | [] => false
    else if (b = 0xE0) || (0xE1 ≤ b && b ≤ 0xEF) then
      match rest with
      | c1 :: c2 :: r =>
        (if b = 0xE0 then 0xA0 ≤ c1 && c1 ≤ 0xBF
         else if b = 0xED then 0x80 ≤ c1 && c1 ≤ 0x9F
         else isCont c1) && isCont c2 && utf8ValidAux f r
      | _ => false
    else if 0xF0 ≤ b && b ≤ 0xF4 then
      match rest with
      | c1 :: c2 :: c3 :: r =>
        (if b = 0xF0 then 0x90 ≤ c1 && c1 ≤ 0xBF
         else if b = 0xF4 then 0x80 ≤ c1 && c1 ≤ 0x8F
         else isCont c1) && isCont c2 && isCont c3 && utf8ValidAux f r
      | _ => false
    else false

/-- Whether the byte sample decodes as UTF-8. -/
def utf8Valid (data : List Nat) : Bool := utf8ValidAux (data.length + 1) data

/-- Whether Python `data.decode(encoding)` succeeds for the three legacy
encodings tried by the detector: `latin-1` and `iso-8859-1` accept every
byte, `cp1252` rejects the five unassigned code points. -/
def decodeOk (encoding : String) (data : List Nat) : Bool :=
  if encoding = "cp1252" then
    !(data.any fun b => b = 0x81 || b = 0x8D || b = 0x8F || b = 0x90 || b = 0x9D)
  else true

/-- Model of `HeuristicBinaryDetector._looks_like_text`.  The Python source
compares `printable / total >= 0.70` in floating point; the comparison is
modelled as the exact rational test `10 * printable ≥ 7 * total` (the two
agree except on ratios within one ulp of 0.7, and no claim below depends on
this branch's value). -/
def looks_like_text (data : List Nat) : Bool :=
  if data.isEmpty then true
  else
    let printable :=
      (data.filter fun b => (32 ≤ b && b ≤ 126) || b = 9 || b = 10 || b = 13 || 128 ≤ b).length
    10 * printable ≥ 7 * data.length

/-- Model of `HeuristicBinaryDetector._is_binary_data` for a non-empty
`path` whose lower-cased extension is `ext`. -/
def is_binary_data (data : List Nat) (ext : String) : Bool :=
  if ext ∈ BINARY_EXTENSIONS then true
  else if data.isEmpty then false
  else if data.contains 0 then true
  else if utf8Valid data then false
  else if decodeOk "latin-1" data && looks_like_text data then false
  else if decodeOk "cp1252" data && looks_like_text data then false
  else if decodeOk "iso-8859-1" data && looks_like_text data then false
  else if looks_like_text data then false
  else false

/-! ## TokenCounter

Model of `tokens/counter.py`.  The provider backends (`get_openai_token_count`
and friends) are external collaborators; they are represented by an
environment function `env provider model content` giving the integer result
of the provider call (negative values model the "returned -1" failure
path). -/

def OPENAI_PREFIXES : List String := ["gpt-", "o1-"]

def GOOGLE_PREFIXES : List String := ["gemini-", "palm-"]

def ANTHROPIC_PREFIXES : List String := ["claude-"]

def PRIMITIVE_PREFIXES : List String := ["chars-"]

/-- Model of `TokenCounter._get_provider_for_model`. -/
def get_provider_for_model (model : String) : String :=
  if OPENAI_PREFIXES.any (pyStartsWith model ·) then "openai"
  else if GOOGLE_PREFIXES.any (pyStartsWith model ·) then "google"
  else if ANTHROPIC_PREFIXES.any (pyStartsWith model ·) then "anthropic"
  else if PRIMITIVE_PREFIXES.any (pyStartsWith model ·) then "primitive"
  else "unknown"

/-- Model of the loop body of `TokenCounter.count_tokens`: accumulate the
per-model counts, raising `ValueError` (modelled by `Except.error`) for an
unknown model prefix or a negative provider result. -/
def count_tokens_go (env : String → String → String → Int) (content : String) :
    List (String × Int) → List String → Except String (List (String × Int))
  | counts, [] => .ok counts
  | counts, model :: rest =>
    let provider := get_provider_for_model model
    if provider = "unknown" then
      .error ("Unknown model prefix for " ++ model)
    else
      let token_count := env provider model content
      if token_count < 0 then
        .error ("Failed to count tokens for model " ++ model)
      else
        count_tokens_go env content (counts ++ [(model, token_count)]) rest

/-- Model of `TokenCounter.count_tokens`. -/
def count_tokens (models : List String) (env : String → String → String → Int)
    (content : String) : Except String (List (String × Int)) :=
  count_tokens_go env content [] models

/-! ## FileScanner

Model of `files/discovery/discoverer.py`.  The filesystem is abstracted as
the list of regular files met by `os.walk`, each carrying the outcome of
the operating-system calls made for it: the binary detector's verdict, the
`os.path.getsize` result (`none` models `OSError`) and the decoded text
content (`none` models `OSError`/`UnicodeDecodeError` on `open`/`read`). -/

/-- One regular file as seen during the walk: its posix relative path, the
lower-cased suffix of its full path, the detector verdict, and the results
of the two filesystem reads. -/
structure ScannedFile where
  rel : String
  ext : String
  isBinary : Bool
  sizeRes : Option Nat
  contentRes : Option String
  deriving Repr, DecidableEq

/-- The per-file dictionary built by `FileScanner._create_file_data`. -/
structure FileData where
  is_binary : Bool
  size : Nat
  flags : List String
  tokens : List (String × Int)
  deriving Repr, DecidableEq

/-- Model of `FileScanner._create_file_data`: `OSError` on `getsize` gives
size 0, read failures give an empty token map, and a `ValueError` escaping
`count_tokens` propagates (it is not among the caught exceptions). -/
def create_file_data (token_models : Option (List String))
    (env : String → String → String → Int) (f : ScannedFile) :
    Except String FileData :=
  let size := f.sizeRes.getD 0
  let flags : List String := if f.isBinary then ["binary"] else []
  match token_models with
  | none => .ok ⟨f.isBinary, size, flags, []⟩
  | some models =>
    match f.contentRes with
    | none => .ok ⟨f.isBinary, size, flags, []⟩
    | some content =>
      (count_tokens models env content).map fun tokens =>
        ⟨f.isBinary, size, flags, tokens⟩

/-- Model of `FileScanner.discover`: walk the files in order, decide each
with `is_ignored`, filter with `_should_include_file`, and build the output
map (an association list in insertion order).  An uncaught exception inside
the loop aborts the whole discovery. -/
def discover (include_binary : Bool) (pats : List GitPattern)
    (filter_type : String) (token_models : Option (List String))
    (env : String → String → String → Int) :
    List ScannedFile → Except String (List (String × FileData))
  | [] => .ok []
  | f :: rest => do
    let ignore_data := is_ignored include_binary pats f.isBinary f.ext f.rel
    if should_include_file filter_type ignore_data.is_ignored then
      let fd ← create_file_data token_models env f
      let out ← discover include_binary pats filter_type token_models env rest
      .ok ((f.rel, fd) :: out)
    else
      discover include_binary pats filter_type token_models env rest

/-! ## Aggregate tree

Model of `files/tree/node.py` (`FileSystemNode`) and `files/tree/tree.py`
(`FileSystemTree._build`).  A node carries the same attributes as the Python
class; `relative_path` is represented by its list of `/`-separated
segments.  Python dictionaries `Dict[str, int]` are association lists with
pairwise-distinct keys. -/

/-- A token-count dictionary (`Dict[str, int]`). -/
abbrev TokenMap := List (String × Int)

/-- Dictionary lookup with default 0 (`d.get(k, 0)`): the value of the
first entry carrying the key. -/
def lookupTok : TokenMap → String → Int
  | [], _ => 0
  | p :: rest, k => if p.1 = k then p.2 else lookupTok rest k

/-- One step of the token aggregation loop:
`aggregated[key] = aggregated.get(key, 0) + int(value)`. -/
def dictAdd (acc : TokenMap) (kv : String × Int) : TokenMap :=
  if acc.any (fun p => p.1 = kv.1) then
    acc.map fun p => if p.1 = kv.1 then (p.1, p.2 + kv.2) else p
  else acc ++ [kv]

/-- Key-wise sum of a list of token dictionaries, mirroring the nested loop
of `recompute_aggregates_for_node`. -/
def dictMergeAll (ms : List TokenMap) : TokenMap :=
  ms.foldl (fun acc m => m.foldl dictAdd acc) []

/-- The `FileSystemNode` class: name, `is_directory`, `relative_path` (as
segments), `extension`, owned children, `flags`, `file_size`, `file_tokens`,
`aggregate_size`, `aggregate_tokens` and the `dirty` bit (initially true). -/
inductive FileSystemNode where
  | mk (name : String) (is_directory : Bool) (relative_path : List String)
       (extension : String) (children : List FileSystemNode)
       (flags : List String) (file_size : Int) (file_tokens : TokenMap)
       (aggregate_size : Int) (aggregate_tokens : TokenMap) (dirty : Bool)

namespace FileSystemNode

def name : FileSystemNode → String
  | .mk nm _ _ _ _ _ _ _ _ _ _ => nm

def is_directory : FileSystemNode → Bool
  | .mk _ isDir _ _ _ _ _ _ _ _ _ => isDir

def relative_path : FileSystemNode → List String
  | .mk _ _ rp _ _ _ _ _ _ _ _ => rp

def extension : FileSystemNode → String
  | .mk _ _ _ ext _ _ _ _ _ _ _ => ext

def children : FileSystemNode → List FileSystemNode
  | .mk _ _ _ _ ch _ _ _ _ _ _ => ch

def flags : FileSystemNode → List String
  | .mk _ _ _ _ _ fl _ _ _ _ _ => fl

def file_size : FileSystemNode → Int
  | .mk _ _ _ _ _ _ fs _ _ _ _ => fs

def file_tokens : FileSystemNode → TokenMap
  | .mk _ _ _ _ _ _ _ ft _ _ _ => ft

def aggregate_size : FileSystemNode → Int
  | .mk _ _ _ _ _ _ _ _ agg _ _ => agg

def aggregate_tokens : FileSystemNode → TokenMap
  | .mk _ _ _ _ _ _ _ _ _ aggT _ => aggT

def dirty : FileSystemNode → Bool
  | .mk _ _ _ _ _ _ _ _ _ _ d => d

end FileSystemNode

mutual
/-- The value returned by reading the `size` property: a file returns
`file_size`; a dirty directory recomputes from its direct children (the
recursive reads of `child.size`); a clean directory returns the cached
aggregate. -/
def size_value : FileSystemNode → Int
  | .mk _ isDir _ _ ch _ fs _ agg _ dirty =>
    if !isDir then fs else if dirty then size_sum ch else agg

/-- Sum of the sizes read from a children list
(`sum(child.size for child in self.children)`). -/
def size_sum : List FileSystemNode → Int
  | [] => 0
  | c :: cs => size_value c + size_sum cs
end

mutual
/-- The value returned by reading the `tokens` property. -/
def tokens_value : FileSystemNode → TokenMap
  | .mk _ isDir _ _ ch _ _ ft _ aggT dirty =>
    if !isDir then ft else if dirty then dictMergeAll (tokens_list ch) else aggT

/-- The token dictionaries read from a children list, in order. -/
def tokens_list : List FileSystemNode → List TokenMap
  | [] => []
  | c :: cs => tokens_value c :: tokens_list cs
end

mutual
/-- The state after reading `size` (or `tokens`) on a node: a read of a
dirty directory runs `recompute_aggregates_for_node`, whose `child.size` and
`child.tokens` reads recursively recompute dirty children, then caches both
aggregates and clears this node's dirty bit; all other reads leave the state
unchanged. -/
def read_node : FileSystemNode → FileSystemNode
  | .mk nm isDir rp ext ch fl fs ft agg aggT dirty =>
    if !isDir then .mk nm isDir rp ext ch fl fs ft agg aggT dirty
    else if dirty then
      let ch' := read_list ch
      .mk nm isDir rp ext ch' fl fs ft (size_sum ch') (dictMergeAll (tokens_list ch')) false
    else .mk nm isDir rp ext ch fl fs ft agg aggT dirty

/-- Read every node of a children list, in order. -/
def read_list : List FileSystemNode → List FileSystemNode
  | [] => []
  | c :: cs => read_node c :: read_list cs
end

mutual
/-- How many times `recompute_aggregates_for_node` runs during a read of
this node: once per dirty directory reached through a chain of dirty
directories. -/
def recompute_count : FileSystemNode → Nat
  | .mk _ isDir _ _ ch _ _ _ _ _ dirty =>
    if !isDir then 0 else if dirty then 1 + recompute_count_list ch else 0

def recompute_count_list : List FileSystemNode → Nat
  | [] => 0
  | c :: cs => recompute_count c + recompute_count_list cs
end

mutual
/-- Model of `recompute_aggregates`: a post-order pass running
`recompute_aggregates_for_node` on every directory node of the subtree. -/
def recompute_aggregates : FileSystemNode → FileSystemNode
  | .mk nm isDir rp ext ch fl fs ft agg aggT dirty =>
    let ch' := recompute_aggregates_list ch
    if isDir then
      .mk nm isDir rp ext ch' fl fs ft (size_sum ch') (dictMergeAll (tokens_list ch')) false
    else .mk nm isDir rp ext ch' fl fs ft agg aggT dirty

def recompute_aggregates_list : List FileSystemNode → List FileSystemNode
  | [] => []
  | c :: cs => recompute_aggregates c :: recompute_aggregates_list cs
end

/-- Replace the first child carrying the given name (navigation by name is
faithful because sibling names are unique: `_build` creates a child only
when its path is absent from the index). -/
def replace_first_child (seg : String) (c' : FileSystemNode) :
    List FileSystemNode → List FileSystemNode
  | [] => []
  | c :: cs => if c.name = seg then c' :: cs else c :: replace_first_child seg c' cs

/-- Model of calling `set_file_metrics(size=…, tokens=…)` on the node at the
given path below `t`: raises `ValueError` (`none`) on a directory node,
updates the given fields otherwise, and `mark_dirty_up` sets the dirty bit
on the node and every ancestor, i.e. on every node along the path.  `none`
also models a path that does not address a node. -/
def set_file_metrics_at (size? : Option Int) (tokens? : Option TokenMap) :
    List String → FileSystemNode → Option FileSystemNode
  | [], .mk nm isDir rp ext ch fl fs ft agg aggT _ =>
    if isDir then none
    else some (.mk nm isDir rp ext ch fl (size?.getD fs) (tokens?.getD ft) agg aggT true)
  | seg :: rest, .mk nm isDir rp ext ch fl fs ft agg aggT _ =>
    match ch.find? (fun c => c.name = seg) with
    | none => none
    | some c =>
      (set_file_metrics_at size? tokens? rest c).map fun c' =>
        .mk nm isDir rp ext (replace_first_child seg c' ch) fl fs ft agg aggT true

/-- Model of calling `mark_flag(flag)` on the node at the given path:
adds the flag to the node's flag set and dirties the whole ancestor
chain. -/
def mark_flag_at (flag : String) :
    List String → FileSystemNode → Option FileSystemNode
  | [], .mk nm isDir rp ext ch fl fs ft agg aggT _ =>
    some (.mk nm isDir rp ext ch (if flag ∈ fl then fl else fl ++ [flag]) fs ft agg aggT true)
  | seg :: rest, .mk nm isDir rp ext ch fl fs ft agg aggT _ =>
    match ch.find? (fun c => c.name = seg) with
    | none => none
    | some c =>
      (mark_flag_at flag rest c).map fun c' =>
        .mk nm isDir rp ext (replace_first_child seg c' ch) fl fs ft agg aggT true

/-- Model of reading `size`/`tokens` on the node at the given path: only the
addressed subtree changes (reads never touch ancestors); reading through a
missing path changes nothing. -/
def read_at : List String → FileSystemNode → FileSystemNode
  | [], n => read_node n
  | seg :: rest, .mk nm isDir rp ext ch fl fs ft agg aggT dirty =>
    match ch.find? (fun c => c.name = seg) with
    | none => .mk nm isDir rp ext ch fl fs ft agg aggT dirty
    | some c =>
      .mk nm isDir rp ext (replace_first_child seg (read_at rest c) ch) fl fs ft agg aggT dirty

/-! ### Building the tree (`FileSystemTree._build`) -/

/-- The per-file data consumed by `_build`
(`data.get("size", 0)`, `data.get("tokens", {})`, `data.get("flags", set())`). -/
structure FileRecord where
  size : Int
  tokens : TokenMap
  flags : List String
  deriving Repr, DecidableEq

/-- Model of `tree.py`'s `_extract_extension` applied to the basename of a
relative path (a leading-dot name with a single dot yields the name after
the dot; otherwise `os.path.splitext`, which never splits inside the leading
run of dots). -/
def extract_extension (basename : String) : String :=
  if pyStartsWith basename "." && basename.toList.count '.' = 1 then
    (pyDrop basename 1).toLower
  else
    let cs := basename.toList
    let rest := cs.drop ((cs.takeWhile (· = '.')).length)
    if rest.contains '.' then
      ((rest.reverse.takeWhile (· ≠ '.')).reverse.asString).toLower
    else ""

/-- A freshly constructed `FileSystemNode(name=…, is_directory=…,
relative_path=…)`: no children, no metrics, dirty. -/
def new_node (nm : String) (isDir : Bool) (rp : List String) : FileSystemNode :=
  .mk nm isDir rp "" [] [] 0 [] 0 [] true

/-- The root node `_build` starts from. -/
def root_node : FileSystemNode := new_node "" true []

/-- Insert one `files_data` entry: walk the path segments, reusing the
indexed node when the prefix already exists (looked up by name, see
`replace_first_child`) and creating a directory node (`is_directory` iff the
segment is not the last) otherwise; on the final node set the extension,
apply `set_file_metrics` (a `ValueError` on a directory aborts the build)
and `mark_flag` each flag.  Every node along the path is dirtied by
`mark_dirty_up`. -/
def insert_entry (rec : FileRecord) :
    List String → FileSystemNode → Option FileSystemNode
  | [], .mk nm isDir rp _ ch fl _ _ agg aggT _ =>
    if isDir then none
    else
      some (.mk nm isDir rp (extract_extension (rp.getLast?.getD "")) ch
              (rec.flags.foldl (fun fl g => if g ∈ fl then fl else fl ++ [g]) fl)
              rec.size rec.tokens agg aggT true)
  | seg :: rest, .mk nm isDir rp ext ch fl fs ft agg aggT _ =>
    match ch.find? (fun c => c.name = seg) with
    | some c =>
      (insert_entry rec rest c).map fun c' =>
        .mk nm isDir rp ext (replace_first_child seg c' ch) fl fs ft agg aggT true
    | none =>
      (insert_entry rec rest (new_node seg (rest ≠ []) (rp ++ [seg]))).map fun c' =>
        .mk nm isDir rp ext (ch ++ [c']) fl fs ft agg aggT true

/-- Model of `FileSystemTree._build`: fold the entries (dictionary insertion
order) into the root, then `root.recompute_aggregates()`. -/
def build_tree (entries : List (List String × FileRecord)) :
    Option FileSystemNode :=
  (entries.foldlM (fun t e => insert_entry e.2 e.1 t) root_node).map
    recompute_aggregates

mutual
/-- All nodes of a subtree in `PreOrderIter` order (the node, then its
children's subtrees left to right). -/
def all_nodes : FileSystemNode → List FileSystemNode
  | .mk nm isDir rp ext ch fl fs ft agg aggT dirty =>
    .mk nm isDir rp ext ch fl fs ft agg aggT dirty :: all_nodes_list ch

def all_nodes_list : List FileSystemNode → List FileSystemNode
  | [] => []
  | c :: cs => all_nodes c ++ all_nodes_list cs
end

/-- The contribution of one node to `get_file_paths`: its relative path,
when the node is not a directory and its relative path is non-empty. -/
def node_path_entry (n : FileSystemNode) : Option (List String) :=
  if !n.is_directory && n.relative_path ≠ [] then some n.relative_path else none

/-- Model of `FileSystemNode.get_file_paths`: the relative paths of the
non-directory nodes with a non-empty relative path, in pre-order. -/
def get_file_paths (t : FileSystemNode) : List (List String) :=
  (all_nodes t).filterMap node_path_entry

/-- Structural well-formedness of a (partially) built tree with respect to
the set `S` of file paths inserted so far: a node's stored `relative_path`
equals its position `pre`, the root is a directory, a non-root node is a
file exactly when its position is an inserted path, files have no children,
every non-root directory is a proper prefix of some inserted path, and
sibling names are distinct (which makes the index lookups of `_build`
equivalent to by-name navigation). -/
inductive Built : List (List String) → List String → FileSystemNode → Prop where
  | mk : ∀ S pre nm isDir ext ch fl fs ft agg aggT dirty,
      (pre = [] → isDir = true) →
      (pre ≠ [] → (isDir = false ↔ pre ∈ S)) →
      (isDir = false → ch = []) →
      (isDir = true → pre ≠ [] → ∃ m ∈ S, pre <+: m ∧ pre ≠ m) →
      ((ch.map FileSystemNode.name).Nodup) →
      (∀ c ∈ ch, Built S (pre ++ [FileSystemNode.name c]) c) →
      Built S pre (.mk nm isDir pre ext ch fl fs ft agg aggT dirty)

/-! ### Reachable tree states -/

/-- Well-formedness of the token dictionaries stored in a tree: every
stored `file_tokens` and `aggregate_tokens` map has pairwise-distinct keys
(each was built from a Python dict, or is the initial empty dict). -/
inductive TokensWF : FileSystemNode → Prop where
  | mk : ∀ nm isDir rp ext ch fl fs ft agg aggT dirty,
      (ft.map Prod.fst).Nodup →
      (aggT.map Prod.fst).Nodup →
      (∀ c ∈ ch, TokensWF c) →
      TokensWF (.mk nm isDir rp ext ch fl fs ft agg aggT dirty)

/-- The aggregate invariant: stored token maps have distinct keys, and a
clean directory caches exactly the sum of its direct children's readable
values. -/
inductive Inv : FileSystemNode → Prop where
  | mk : ∀ nm isDir rp ext ch fl fs ft agg aggT dirty,
      (ft.map Prod.fst).Nodup →
      (aggT.map Prod.fst).Nodup →
      (isDir = true → dirty = false →
        agg = size_sum ch ∧ aggT = dictMergeAll (tokens_list ch)) →
      (∀ c ∈ ch, Inv c) →
      Inv (.mk nm isDir rp ext ch fl fs ft agg aggT dirty)

/-- The per-directory aggregate correctness property claimed for the tree:
whenever a directory node's `size` (or `tokens`) is read, the returned value
is the sum (key-wise, for tokens) of the values read from its direct
children, and a clean directory caches exactly those sums. -/
def dir_aggregates_correct (t : FileSystemNode) : Prop :=
  ∀ n ∈ all_nodes t, n.is_directory = true →
    (size_value n = (n.children.map size_value).sum ∧
     ∀ k, lookupTok (tokens_value n) k =
       (n.children.map fun c => lookupTok (tokens_value c) k).sum) ∧
    (n.dirty = false →
      n.aggregate_size = (n.children.map size_value).sum ∧
      ∀ k, lookupTok n.aggregate_tokens k =
        (n.children.map fun c => lookupTok (tokens_value c) k).sum)

/-- The tree states reachable in the modelled API: build a tree from a
`files_data` map (token maps are Python dicts, hence have distinct keys),
then apply any sequence of `set_file_metrics` / `mark_flag` mutations and
`size`/`tokens` reads. -/
inductive Reachable : FileSystemNode → Prop where
  | build : ∀ entries t,
      (∀ e ∈ entries, ((e.2.tokens.map Prod.fst).Nodup : Prop)) →
      build_tree entries = some t → Reachable t
  | set_metrics : ∀ t path size? tokens? t', Reachable t →
      (∀ m, tokens? = some m → ((m.map Prod.fst).Nodup : Prop)) →
      set_file_metrics_at size? tokens? path t = some t' → Reachable t'
  | mark : ∀ t path flag t', Reachable t →
      mark_flag_at flag path t = some t' → Reachable t'
  | read : ∀ t path, Reachable t → Reachable (read_at path t)

/-- The record that a successful (non-aborting) discovery stores for one
included file, written out directly: size 0 when `getsize` failed, the
binary flag, and per-model token counts only when a token counter is
configured and the content read succeeded. -/
def spec_file_data (token_models : Option (List String))
    (env : String → String → String → Int) (f : ScannedFile) : FileData :=
  { is_binary := f.isBinary
    size := f.sizeRes.getD 0
    flags := if f.isBinary then ["binary"] else []
    tokens :=
      match token_models, f.contentRes with
      | some models, some content =>
        models.map fun m => (m, env (get_provider_for_model m) m content)
      | _, _ => [] }

/-- A valid token configuration: every configured model resolves to a known
provider and every provider call succeeds (returns a non-negative count). -/
def token_config_ok (token_models : Option (List String))
    (env : String → String → String → Int) : Prop :=
  ∀ models, token_models = some models → ∀ m ∈ models,
    get_provider_for_model m ≠ "unknown" ∧
    ∀ content, 0 ≤ env (get_provider_for_model m) m content

/-- A constant provider environment (used to instantiate witnesses). -/
def constEnv (n : Int) : String → String → String → Int := fun _ _ _ => n

/-! ## Pattern-resolver lemmas -/

/-- Generalised fold/last-match correspondence for `matchFile`. -/
theorem foldl_match_eq_last (path : String) (l : List GitPattern) :
    ∀ acc : Bool,
      l.foldl
        (fun acc gp =>
          match gp.includes with
          | none => acc
          | some inc => if gp.matches path then inc else acc)
        acc
      = ((l.filter fun gp => gp.includes.isSome && gp.matches path).getLast?).elim
          acc (fun gp => gp.includes.getD false) := by
  induction l using List.reverseRecOn with
  | nil => intro acc; rfl
  | append_singleton l gp ih =>
    intro acc
    rw [List.foldl_append, List.foldl_cons, List.foldl_nil, ih, List.filter_append]
    by_cases hq : (gp.includes.isSome && gp.matches path) = true
    · have hfq : List.filter (fun gp => gp.includes.isSome && gp.matches path) [gp] = [gp] := by
        simp [List.filter, hq]
      rw [hfq, List.getLast?_concat]
      rcases hinc : gp.includes with _ | inc
      · rw [hinc] at hq; simp at hq
      · have hm : gp.matches path = true := by
          rw [hinc] at hq; simpa using hq
        rcases hl : (l.filter fun gp => gp.includes.isSome && gp.matches path).getLast? with _ | x <;>
          simp [hinc, hm]
    · have hfq : List.filter (fun gp => gp.includes.isSome && gp.matches path) [gp] = [] := by
        simp only [List.filter, Bool.not_eq_true] at *
        rw [hq]
      rw [hfq, List.append_nil]
      rcases hinc : gp.includes with _ | inc
      · rcases hl : (l.filter fun gp => gp.includes.isSome && gp.matches path).getLast? with _ | x <;>
          simp [hinc]
      · have hm : gp.matches path = false := by
          rw [hinc] at hq
          simpa using hq
        rcases hl : (l.filter fun gp => gp.includes.isSome && gp.matches path).getLast? with _ | x <;>
          simp [hinc, hm]

/-- `PathSpec.match_file` returns the polarity of the last matching
non-null pattern (`false` when no pattern matches). -/
theorem matchFile_eq_lastMatchDecision (pats : List GitPattern) (path : String) :
    matchFile pats path = lastMatchDecision pats path :=
  foldl_match_eq_last path pats false

/-! ## Claim C1 -/

/-- Claim C1, counterexample: the claim's combined order is (defaults, user,
discovered), under which the discovered rule `a.log` would be the last match
and the path `a.log` would be ignored; the code's `_compile_spec` appends
the user patterns last, so the user rule `!a.log` is the last match and the
path is not ignored. -/
theorem c1_counterexample :
    matchFile (compile_spec ["!a.log"] true true ["a.log"]) "a.log" = false ∧
    matchFile (spec_claim_order_compile ["!a.log"] true true ["a.log"]) "a.log" = true := by
  constructor <;> decide

/-- Claim C1 (amended): for every compiled rule set and path, the ignore
decision is made by the last matching rule in the combined origin-ordered
list, where the origins are combined as built-in defaults first, then
patterns discovered from ignore files (root first), then caller-supplied
(user) patterns last — so a user rule that matches overrides a discovered
rule that also matches, not the other way round. -/
theorem c1_last_match_precedence (user : List String)
    (use_defaults read_ignore_files : Bool) (gitignorePatterns : List String)
    (path : String) :
    compile_spec user use_defaults read_ignore_files gitignorePatterns =
      (((if use_defaults then DEFAULT_IGNORE_PATTERNS else []) ++
        (if read_ignore_files then gitignorePatterns else []) ++
        user).map parsePattern) ∧
    matchFile (compile_spec user use_defaults read_ignore_files gitignorePatterns) path =
      lastMatchDecision (compile_spec user use_defaults read_ignore_files gitignorePatterns) path :=
  ⟨rfl, matchFile_eq_lastMatchDecision _ _⟩

/-! ## Claim C2 -/

/-- Claim C2, counterexample: in the compiled rule set
`["sub", "!sub/keep.tmp"]` the positive rule `sub` excludes the ancestor
directory `sub` of `sub/keep.tmp` and no rule re-includes that ancestor
(`matchFile` on `sub` is `true`), yet the verdict for `sub/keep.tmp` is
"not ignored": `PathSpec.match_file` applies last-match-wins to the checked
path alone, so the later negation re-includes the file even though its
parent directory stays excluded. -/
theorem c2_counterexample :
    matchFile (compile_spec ["sub", "!sub/keep.tmp"] false false []) "sub" = true ∧
    (parsePattern "sub").matches "sub/keep.tmp" = true ∧
    (parsePattern "!sub/keep.tmp").matches "sub/keep.tmp" = true ∧
    matchFile (compile_spec ["sub", "!sub/keep.tmp"] false false []) "sub/keep.tmp" = false := by
  refine ⟨?_, ?_, ?_, ?_⟩ <;> decide

/-- Claim C2 (amended): a negated pattern re-includes a path whenever it is
the last matching rule for that path, regardless of any independent rule
excluding an ancestor directory — the compiled matcher evaluates only the
checked path and carries no ancestor-exclusion constraint. -/
theorem c2_negation_last_match_wins (pats : List GitPattern) (path : String)
    (gp : GitPattern)
    (hlast : (pats.filter fun g => g.includes.isSome && g.matches path).getLast? = some gp)
    (hneg : gp.includes = some false) :
    matchFile pats path = false := by
  rw [matchFile_eq_lastMatchDecision]
  unfold lastMatchDecision
  rw [hlast]
  simp [hneg]

/-- Witness for `c2_negation_last_match_wins` at the counterexample's rule
set. -/
theorem c2_negation_last_match_wins_witness :
    ((compile_spec ["sub", "!sub/keep.tmp"] false false []).filter
        fun g => g.includes.isSome && g.matches "sub/keep.tmp").getLast?
      = some (parsePattern "!sub/keep.tmp") ∧
    (parsePattern "!sub/keep.tmp").includes = some false ∧
    matchFile (compile_spec ["sub", "!sub/keep.tmp"] false false []) "sub/keep.tmp" = false :=
  ⟨by decide, by decide,
    c2_negation_last_match_wins (compile_spec ["sub", "!sub/keep.tmp"] false false [])
      "sub/keep.tmp" (parsePattern "!sub/keep.tmp") (by decide) (by decide)⟩

/-! ## Claim C4 -/

/-- Claim C4, counterexample: a binary file whose path matches an ignore
pattern, with binary files configured to be included.  Full evaluation of
both reasons would exclude it (`spec_full_eval_is_ignored` is `true`), but
`is_ignored` skips pattern evaluation for binary files, returns
"not ignored", and the file is kept in mode `included` — the short-circuit
changes the net outcome, not only the recorded reasons. -/
theorem c4_counterexample :
    (is_ignored true (compile_spec ["*.png"] false false []) true ".png" "a.png").is_ignored
      = false ∧
    spec_full_eval_is_ignored true (compile_spec ["*.png"] false false []) true "a.png"
      = true ∧
    should_include_file "included"
      (is_ignored true (compile_spec ["*.png"] false false []) true ".png" "a.png").is_ignored
      = true := by
  refine ⟨?_, ?_, ?_⟩ <;> decide

/-- Claim C4 (amended): the handler evaluates patterns only for non-binary
files.  For every input, the net verdict is `!include_binary` for a binary
file — patterns never contribute — and the pattern verdict for a non-binary
file; it agrees with the always-evaluate-both combination exactly on
non-binary files and on binary files that either are being excluded or match
no pattern. -/
theorem c4_short_circuit_verdict (include_binary : Bool)
    (pats : List GitPattern) (is_binary : Bool) (ext rel_path : String) :
    (is_ignored include_binary pats is_binary ext rel_path).is_ignored
      = (if is_binary then !include_binary else matchFile pats rel_path) ∧
    ((is_ignored include_binary pats is_binary ext rel_path).is_ignored
        = spec_full_eval_is_ignored include_binary pats is_binary rel_path
      ↔ (is_binary = true → include_binary = true → matchFile pats rel_path = false)) := by
  unfold is_ignored spec_full_eval_is_ignored process_pattern_matches
  cases is_binary <;> cases include_binary <;>
    simp <;>
    rcases h : matchFile pats rel_path <;>
    simp [h] <;>
    rcases (categorize_matched_patterns pats rel_path).2 with _ | ⟨x, xs⟩ <;>
    simp

/-! ## Claim C5 -/

/-- The inner line loop of `_read_gitignore_patterns_with_prefixes` appends
exactly the scoped transformation of each surviving line. -/
theorem read_gitignore_line (base : String) (lines : List String) :
    ∀ acc : List String,
      lines.foldl
        (fun patterns raw =>
          let s := pyStrip raw
          if s = "" || pyStartsWith s "#" then patterns
          else
            let neg := pyStartsWith s "!"
            let body := if neg then pyDrop s 1 else s
            let prefixed :=
              if base ≠ "" && base ≠ "." then base ++ "/" ++ body else body
            patterns ++ [if neg then "!" ++ prefixed else prefixed])
        acc
      = acc ++ lines.filterMap (spec_scoped_line base) := by
  induction lines with
  | nil => intro acc; simp
  | cons raw rest ih =>
    intro acc
    rw [List.foldl_cons, List.filterMap_cons]
    simp only
    by_cases hblank : (pyStrip raw = "" || pyStartsWith (pyStrip raw) "#") = true
    · rw [if_pos hblank, ih]
      have hs : spec_scoped_line base raw = none := by
        unfold spec_scoped_line
        rw [if_pos hblank]
      rw [hs]
    · rw [if_neg hblank, ih]
      by_cases hneg : pyStartsWith (pyStrip raw) "!" = true
      · have hs : spec_scoped_line base raw =
            some ("!" ++ (if base ≠ "" && base ≠ "." then
              base ++ "/" ++ pyDrop (pyStrip raw) 1 else pyDrop (pyStrip raw) 1)) := by
          unfold spec_scoped_line
          rw [if_neg hblank, if_pos hneg]
        rw [hs, hneg]
        simp only [if_true]
        by_cases hb : (base ≠ "" && base ≠ ".") = true <;>
          simp [hb, List.append_assoc]
      · have hs : spec_scoped_line base raw =
            some (if base ≠ "" && base ≠ "." then
              base ++ "/" ++ pyStrip raw else pyStrip raw) := by
          unfold spec_scoped_line
          rw [if_neg hblank, if_neg hneg]
        rw [hs, Bool.not_eq_true] at *
        rw [hneg]
        simp only [Bool.false_eq_true, if_false]
        by_cases hb : (base ≠ "" && base ≠ ".") = true <;>
          simp [hb, List.append_assoc]

/-- The outer file loop of `_read_gitignore_patterns_with_prefixes`
concatenates the per-file scoped patterns in order. -/
theorem read_gitignore_outer (files : List (String × List String)) :
    ∀ acc : List String,
      files.foldl
        (fun patterns bf =>
          bf.2.foldl
            (fun patterns raw =>
              let s := pyStrip raw
              if s = "" || pyStartsWith s "#" then patterns
              else
                let neg := pyStartsWith s "!"
                let body := if neg then pyDrop s 1 else s
                let prefixed :=
                  if bf.1 ≠ "" && bf.1 ≠ "." then bf.1 ++ "/" ++ body else body
                patterns ++ [if neg then "!" ++ prefixed else prefixed])
            patterns)
        acc
      = acc ++ (files.flatMap fun bf => bf.2.filterMap (spec_scoped_line bf.1)) := by
  induction files with
  | nil => intro acc; simp
  | cons bf rest ih =>
    intro acc
    rw [List.foldl_cons, List.flatMap_cons]
    rw [read_gitignore_line bf.1 bf.2 acc, ih, List.append_assoc]

/-- Claim C5: reading discovered ignore files scopes each surviving pattern
line to the directory of its file — `p` becomes `d/p` and `!p` becomes
`!d/p`, with no prefix at the scan root, skipping blank lines and `#`
comments (first conjunct, stated against the spec-side line transformation
`spec_scoped_line`); consequently, with a root ignore file `*.tmp` and
`sub/.ignorefile` containing `!keep.tmp`, the file `sub/keep.tmp` is not
ignored while `sub/other.tmp` is (remaining conjuncts, evaluated on the
fully compiled rule set including the built-in defaults). -/
theorem c5_gitignore_scoping :
    (∀ files : List (String × List String),
      read_gitignore_patterns files =
        files.flatMap fun bf => bf.2.filterMap (spec_scoped_line bf.1)) ∧
    read_gitignore_patterns [(".", ["*.tmp"]), ("sub", ["!keep.tmp"])]
      = ["*.tmp", "!sub/keep.tmp"] ∧
    matchFile (compile_spec [] true true
        (read_gitignore_patterns [(".", ["*.tmp"]), ("sub", ["!keep.tmp"])]))
      "sub/keep.tmp" = false ∧
    matchFile (compile_spec [] true true
        (read_gitignore_patterns [(".", ["*.tmp"]), ("sub", ["!keep.tmp"])]))
      "sub/other.tmp" = true := by
  refine ⟨?_, by decide, by decide, by decide⟩
  intro files
  unfold read_gitignore_patterns
  rw [read_gitignore_outer files []]
  exact List.nil_append _

/-! ## Claim C10 -/

/-- Claim C10: a readable byte sample with no NUL byte, for a file whose
extension is not blacklisted, is always classified as text — every branch of
`_is_binary_data` after the extension and NUL checks returns `False`, so
neither the UTF-8 attempt nor the printable-ratio test can by itself yield a
binary verdict. -/
theorem c10_no_nul_means_text (data : List Nat) (ext : String)
    (h0 : data.contains 0 = false) (hext : ext ∉ BINARY_EXTENSIONS) :
    is_binary_data data ext = false := by
  unfold is_binary_data
  rw [if_neg hext]
  rcases hempty : data.isEmpty
  · rw [if_neg (by simp [hempty])]
    rw [if_neg (by rw [h0]; simp)]
    split_ifs <;> rfl
  · rw [if_pos (by simp [hempty])]

/-- Witness for `c10_no_nul_means_text` on the two-byte sample "hi" with
extension `.txt`. -/
theorem c10_no_nul_means_text_witness :
    ([104, 105] : List Nat).contains 0 = false ∧
    ".txt" ∉ BINARY_EXTENSIONS ∧
    is_binary_data [104, 105] ".txt" = false :=
  ⟨by decide, by decide, c10_no_nul_means_text [104, 105] ".txt" (by decide) (by decide)⟩

/-! ## Token-counter and discovery lemmas -/

/-- If the token loop returns counts, every model in the remaining list had
a known provider prefix. -/
theorem count_tokens_go_ok_all_known (env : String → String → String → Int)
    (content : String) :
    ∀ (models : List String) (acc res : List (String × Int)),
      count_tokens_go env content acc models = .ok res →
      ∀ m ∈ models, get_provider_for_model m ≠ "unknown" := by
  intro models
  induction models with
  | nil => intro acc res _ m hm; cases hm
  | cons mo rest ih =>
    intro acc res hok m hm
    unfold count_tokens_go at hok
    by_cases hp : get_provider_for_model mo = "unknown"
    · rw [if_pos hp] at hok; cases hok
    · rw [if_neg hp] at hok
      by_cases hneg : env (get_provider_for_model mo) mo content < 0
      · rw [if_pos hneg] at hok; cases hok
      · rw [if_neg hneg] at hok
        rcases List.mem_cons.mp hm with h1 | h2
        · exact h1 ▸ hp
        · exact ih _ _ hok m h2

/-- With a valid configuration the token loop returns exactly one count per
model, in order, from the corresponding provider call. -/
theorem count_tokens_go_ok (env : String → String → String → Int)
    (content : String) :
    ∀ (models : List String) (acc : List (String × Int)),
      (∀ m ∈ models, get_provider_for_model m ≠ "unknown") →
      (∀ m ∈ models, 0 ≤ env (get_provider_for_model m) m content) →
      count_tokens_go env content acc models =
        .ok (acc ++ models.map fun m => (m, env (get_provider_for_model m) m content)) := by
  intro models
  induction models with
  | nil => intro acc _ _; simp [count_tokens_go]
  | cons mo rest ih =>
    intro acc hknown hpos
    unfold count_tokens_go
    rw [if_neg (hknown mo (by simp))]
    rw [if_neg (by simpa using hpos mo (by simp))]
    rw [ih _ (fun m hm => hknown m (by simp [hm])) (fun m hm => hpos m (by simp [hm]))]
    simp

/-- Unfolding `create_file_data` when the content read succeeded. -/
theorem create_file_data_content (models : List String)
    (env : String → String → String → Int) (f : ScannedFile) (content : String)
    (hc : f.contentRes = some content) :
    create_file_data (some models) env f =
      (count_tokens models env content).map fun tokens =>
        ⟨f.isBinary, f.sizeRes.getD 0, if f.isBinary then ["binary"] else [], tokens⟩ := by
  unfold create_file_data
  rw [hc]

/-- `count_tokens` under a valid configuration. -/
theorem count_tokens_ok (env : String → String → String → Int)
    (content : String) (models : List String)
    (hk : ∀ m ∈ models, get_provider_for_model m ≠ "unknown")
    (hp : ∀ m ∈ models, 0 ≤ env (get_provider_for_model m) m content) :
    count_tokens models env content =
      .ok (models.map fun m => (m, env (get_provider_for_model m) m content)) := by
  unfold count_tokens
  rw [count_tokens_go_ok env content models [] hk hp, List.nil_append]

/-- With a valid token configuration, discovery never aborts and returns
exactly the expected record for every file passing the filter. -/
theorem discover_ok_characterization (include_binary : Bool)
    (pats : List GitPattern) (filter_type : String)
    (token_models : Option (List String)) (env : String → String → String → Int)
    (htok : token_config_ok token_models env) :
    ∀ files : List ScannedFile,
      discover include_binary pats filter_type token_models env files =
        .ok (files.filterMap fun f =>
          if should_include_file filter_type
              (is_ignored include_binary pats f.isBinary f.ext f.rel).is_ignored then
            some (f.rel, spec_file_data token_models env f)
          else none) := by
  intro files
  induction files with
  | nil => rfl
  | cons f rest ih =>
    unfold discover
    rw [List.filterMap_cons]
    by_cases hinc : should_include_file filter_type
        (is_ignored include_binary pats f.isBinary f.ext f.rel).is_ignored = true
    · rw [if_pos hinc, if_pos hinc]
      have hfd : create_file_data token_models env f =
          .ok (spec_file_data token_models env f) := by
        rcases htm : token_models with _ | models
        · rfl
        · rcases hc : f.contentRes with _ | content
          · unfold create_file_data spec_file_data
            rw [hc]
          · have hk := fun m hm => (htok models htm m hm).1
            have hp := fun m hm => (htok models htm m hm).2 content
            rw [create_file_data_content models env f content hc,
                count_tokens_ok env content models hk hp]
            unfold spec_file_data
            rw [hc]
            rfl
      rw [hfd, ih]
      rfl
    · rw [if_neg hinc, if_neg hinc, ih]

/-- If a discovery run with a configured token counter returned a result and
some included file's content was read, then every configured model had a
known provider prefix. -/
theorem discover_ok_all_known (include_binary : Bool) (pats : List GitPattern)
    (filter_type : String) (models : List String)
    (env : String → String → String → Int) :
    ∀ (files : List ScannedFile) (out : List (String × FileData)),
      discover include_binary pats filter_type (some models) env files = .ok out →
      ∀ f ∈ files,
        should_include_file filter_type
          (is_ignored include_binary pats f.isBinary f.ext f.rel).is_ignored = true →
        ∀ c, f.contentRes = some c →
        ∀ m ∈ models, get_provider_for_model m ≠ "unknown" := by
  intro files
  induction files with
  | nil => intro out _ f hf; cases hf
  | cons g rest ih =>
    intro out hok f hf hincl c hc m hm
    unfold discover at hok
    rcases List.mem_cons.mp hf with h1 | h2
    · subst h1
      rw [if_pos hincl] at hok
      rcases hfd : create_file_data (some models) env f with e | fd
      · rw [hfd] at hok; cases hok
      · rw [create_file_data_content models env f c hc] at hfd
        rcases hct : count_tokens models env c with e | counts
        · rw [hct] at hfd; cases hfd
        · exact count_tokens_go_ok_all_known env c models [] counts hct m hm
    · by_cases hig : should_include_file filter_type
          (is_ignored include_binary pats g.isBinary g.ext g.rel).is_ignored = true
      · rw [if_pos hig] at hok
        rcases hfd : create_file_data (some models) env g with e | fd
        · rw [hfd] at hok; cases hok
        · rw [hfd] at hok
          rcases hrest : discover include_binary pats filter_type (some models) env rest with e | outr
          · rw [hrest] at hok; cases hok
          · exact ih outr hrest f h2 hincl c hc m hm
      · rw [if_neg hig] at hok
        exact ih out hok f h2 hincl c hc m hm

/-! ## Claim C6 -/

/-- Claim C6: a configured model whose prefix matches no registered provider
makes `count_tokens` raise a `ValueError` instead of returning counts (so
the unknown model is never absorbed as a zero count); any discovery run with
that configuration that processes at least one included readable file aborts
with the error rather than producing a file map; and discovery retried with
the offending model removed (a configuration whose models all resolve and
whose provider calls succeed) returns a result. -/
theorem c6_unknown_model_errors (models : List String) (m : String)
    (env : String → String → String → Int) (content : String)
    (hm : m ∈ models) (hu : get_provider_for_model m = "unknown") :
    (∀ res, count_tokens models env content ≠ .ok res) ∧
    (∀ (include_binary : Bool) (pats : List GitPattern) (filter_type : String)
        (files : List ScannedFile) (f : ScannedFile), f ∈ files →
      should_include_file filter_type
        (is_ignored include_binary pats f.isBinary f.ext f.rel).is_ignored = true →
      f.contentRes.isSome = true →
      ∀ out, discover include_binary pats filter_type (some models) env files ≠ .ok out) ∧
    (∀ retryModels : List String,
      (∀ m' ∈ retryModels, get_provider_for_model m' ≠ "unknown") →
      (∀ m' ∈ retryModels, ∀ c, 0 ≤ env (get_provider_for_model m') m' c) →
      ∀ (include_binary : Bool) (pats : List GitPattern) (filter_type : String)
        (files : List ScannedFile),
        ∃ out, discover include_binary pats filter_type (some retryModels) env files = .ok out) := by
  refine ⟨?_, ?_, ?_⟩
  · intro res hok
    exact count_tokens_go_ok_all_known env content models [] res hok m hm hu
  · intro include_binary pats filter_type files f hf hincl hcontent out hok
    rcases Option.isSome_iff_exists.mp hcontent with ⟨c, hc⟩
    exact discover_ok_all_known include_binary pats filter_type models env files out hok
      f hf hincl c hc m hm hu
  · intro retryModels hknown hpos include_binary pats filter_type files
    refine ⟨_, discover_ok_characterization include_binary pats filter_type
      (some retryModels) env ?_ files⟩
    intro ms hms m' hm'
    have hmseq := Option.some.inj hms
    subst hmseq
    exact ⟨hknown m' hm', fun c => hpos m' hm' c⟩

/-- Witness for `c6_unknown_model_errors` with the spec's example model
name `foo-bar`. -/
theorem c6_unknown_model_errors_witness :
    ("foo-bar" ∈ ["foo-bar"]) ∧
    get_provider_for_model "foo-bar" = "unknown" ∧
    ((∀ res, count_tokens ["foo-bar"] (constEnv 5) "text" ≠ .ok res) ∧
     (∀ (include_binary : Bool) (pats : List GitPattern) (filter_type : String)
         (files : List ScannedFile) (f : ScannedFile), f ∈ files →
       should_include_file filter_type
         (is_ignored include_binary pats f.isBinary f.ext f.rel).is_ignored = true →
       f.contentRes.isSome = true →
       ∀ out, discover include_binary pats filter_type (some ["foo-bar"]) (constEnv 5) files ≠ .ok out) ∧
     (∀ retryModels : List String,
       (∀ m' ∈ retryModels, get_provider_for_model m' ≠ "unknown") →
       (∀ m' ∈ retryModels, ∀ c, 0 ≤ constEnv 5 (get_provider_for_model m') m' c) →
       ∀ (include_binary : Bool) (pats : List GitPattern) (filter_type : String)
         (files : List ScannedFile),
         ∃ out, discover include_binary pats filter_type (some retryModels) (constEnv 5) files = .ok out)) :=
  ⟨by decide, by decide,
    c6_unknown_model_errors ["foo-bar"] "foo-bar" (constEnv 5) "text"
      (by decide) (by decide)⟩

/-! ## Claim C9 -/

/-- Claim C9: with a valid token configuration, discovery returns a result
for every input file list (no abort): each file passing the filter is
recorded with `spec_file_data`, which stores size 0 exactly when the
`getsize` call failed and an empty token map when the content read failed,
while all other files receive their normal records. -/
theorem c9_read_failures_recorded (include_binary : Bool)
    (pats : List GitPattern) (filter_type : String)
    (token_models : Option (List String)) (env : String → String → String → Int)
    (files : List ScannedFile)
    (htok : token_config_ok token_models env) :
    discover include_binary pats filter_type token_models env files =
      .ok (files.filterMap fun f =>
        if should_include_file filter_type
            (is_ignored include_binary pats f.isBinary f.ext f.rel).is_ignored then
          some (f.rel, spec_file_data token_models env f)
        else none) ∧
    (∀ f : ScannedFile, f.sizeRes = none →
      (spec_file_data token_models env f).size = 0) ∧
    (∀ f : ScannedFile, f.contentRes = none →
      (spec_file_data token_models env f).tokens = []) := by
  refine ⟨discover_ok_characterization include_binary pats filter_type
      token_models env htok files, ?_, ?_⟩
  · intro f hf
    unfold spec_file_data
    rw [hf]
    rfl
  · intro f hf
    unfold spec_file_data
    rw [hf]
    rcases token_models with _ | ms <;> rfl

/-- Witness for `c9_read_failures_recorded`: a two-file walk where the first
file fails both reads and the second succeeds; the failing file is still
recorded, with size 0 and no tokens. -/
theorem c9_read_failures_recorded_witness :
    (token_config_ok (some ["chars-x"]) (constEnv 7)) ∧
    discover false [] "included" (some ["chars-x"]) (constEnv 7)
        [⟨"bad.txt", ".txt", false, none, none⟩,
         ⟨"good.txt", ".txt", false, some 3, some "hi"⟩] =
      .ok [("bad.txt", ⟨false, 0, [], []⟩),
           ("good.txt", ⟨false, 3, [], [("chars-x", 7)]⟩)] := by
  have htok : token_config_ok (some ["chars-x"]) (constEnv 7) := by
    intro ms hms m hm
    have hmseq := Option.some.inj hms
    subst hmseq
    have hme := List.mem_singleton.mp hm
    subst hme
    exact ⟨by decide, fun _ => (by decide : (0 : Int) ≤ 7)⟩
  refine ⟨htok, ?_⟩
  rw [(c9_read_failures_recorded false [] "included" (some ["chars-x"])
      (constEnv 7) _ htok).1]
  rfl

/-! ## Tree lemmas -/

/-- Structural induction over `FileSystemNode` with the hypotheses available
for every child. -/
theorem FileSystemNode.inductOn {P : FileSystemNode → Prop}
    (h : ∀ nm isDir rp ext ch fl fs ft agg aggT dirty,
      (∀ c ∈ ch, P c) → P (.mk nm isDir rp ext ch fl fs ft agg aggT dirty)) :
    ∀ t, P t := by
  intro t
  induction t using FileSystemNode.rec (motive_2 := fun l => ∀ c ∈ l, P c) with
  | mk nm isDir rp ext ch fl fs ft agg aggT dirty ih =>
    exact h nm isDir rp ext ch fl fs ft agg aggT dirty ih
  | nil =>
    rename_i c hc
    exact absurd hc (List.not_mem_nil c)
  | cons c cs ihc ihcs =>
    rename_i x hx
    rcases List.mem_cons.mp hx with h1 | h2
    · exact h1 ▸ ihc
    · exact ihcs x h2

theorem read_list_eq_map (ch : List FileSystemNode) :
    read_list ch = ch.map read_node := by
  induction ch with
  | nil => rfl
  | cons c cs ih => simp [read_list, ih]

theorem tokens_list_eq_map (ch : List FileSystemNode) :
    tokens_list ch = ch.map tokens_value := by
  induction ch with
  | nil => rfl
  | cons c cs ih => simp [tokens_list, ih]

theorem recompute_aggregates_list_eq_map (ch : List FileSystemNode) :
    recompute_aggregates_list ch = ch.map recompute_aggregates := by
  induction ch with
  | nil => rfl
  | cons c cs ih => simp [recompute_aggregates_list, ih]

theorem size_sum_congr {ch : List FileSystemNode} {f : FileSystemNode → FileSystemNode}
    (hf : ∀ c ∈ ch, size_value (f c) = size_value c) :
    size_sum (ch.map f) = size_sum ch := by
  induction ch with
  | nil => rfl
  | cons c cs ih =>
    simp only [List.map_cons, size_sum]
    rw [hf c (by simp), ih (fun x hx => hf x (by simp [hx]))]

theorem tokens_list_congr {ch : List FileSystemNode} {f : FileSystemNode → FileSystemNode}
    (hf : ∀ c ∈ ch, tokens_value (f c) = tokens_value c) :
    tokens_list (ch.map f) = tokens_list ch := by
  induction ch with
  | nil => rfl
  | cons c cs ih =>
    simp only [List.map_cons, tokens_list]
    rw [hf c (by simp), ih (fun x hx => hf x (by simp [hx]))]

/-- Reading a node does not change the value its `size` property returns. -/
theorem size_value_read_node : ∀ t, size_value (read_node t) = size_value t := by
  intro t
  induction t using FileSystemNode.inductOn with
  | h nm isDir rp ext ch fl fs ft agg aggT dirty ih =>
    rcases isDir
    · simp [read_node, size_value]
    · rcases dirty
      · simp [read_node, size_value]
      · simp only [read_node, size_value, Bool.not_true, if_false, if_true,
          read_list_eq_map]
        exact size_sum_congr ih

/-- Reading a node does not change the value its `tokens` property
returns. -/
theorem tokens_value_read_node : ∀ t, tokens_value (read_node t) = tokens_value t := by
  intro t
  induction t using FileSystemNode.inductOn with
  | h nm isDir rp ext ch fl fs ft agg aggT dirty ih =>
    rcases isDir
    · simp [read_node, tokens_value]
    · rcases dirty
      · simp [read_node, tokens_value]
      · have hcongr := tokens_list_congr ih
        simp [read_node, tokens_value, read_list_eq_map, hcongr]

/-! ## Claim C8 -/

/-- Claim C8: two consecutive reads of `size` (or `tokens`) with no
intervening mutation return equal values (the read value is preserved by the
state change of a read), the second read performs no recomputation
(`recompute_count` of the post-read state is 0, and the state is a fixed
point of `read_node`), and a read clears the dirty bit of a directory while
a file read leaves the bit untouched. -/
theorem c8_read_idempotent (t : FileSystemNode) :
    size_value (read_node t) = size_value t ∧
    tokens_value (read_node t) = tokens_value t ∧
    read_node (read_node t) = read_node t ∧
    recompute_count (read_node t) = 0 ∧
    (read_node t).dirty = (t.dirty && !t.is_directory) := by
  refine ⟨size_value_read_node t, tokens_value_read_node t, ?_, ?_, ?_⟩ <;>
    · rcases t with ⟨nm, isDir, rp, ext, ch, fl, fs, ft, agg, aggT, dirty⟩
      rcases isDir <;> rcases dirty <;>
        simp [read_node, recompute_count, FileSystemNode.dirty, FileSystemNode.is_directory]

/-! ## Token-dictionary lemmas -/

theorem lookupTok_eq_zero_of_not_mem {m : TokenMap} {k : String}
    (h : k ∉ m.map Prod.fst) : lookupTok m k = 0 := by
  induction m with
  | nil => rfl
  | cons p rest ih =>
    simp only [List.map_cons, List.mem_cons] at h
    push_neg at h
    simp only [lookupTok, if_neg (fun hpk : p.1 = k => h.1 hpk.symm)]
    exact ih h.2

theorem lookupTok_map_update_of_ne {kv : String × Int} {k : String}
    (hne : k ≠ kv.1) (m : TokenMap) :
    lookupTok (m.map fun p => if p.1 = kv.1 then (p.1, p.2 + kv.2) else p) k
      = lookupTok m k := by
  induction m with
  | nil => rfl
  | cons p rest ih =>
    simp only [List.map_cons]
    by_cases hp : p.1 = kv.1
    · rw [if_pos hp]
      simp only [lookupTok]
      rw [if_neg (by rw [hp]; exact fun h => hne h.symm),
          if_neg (by rw [hp]; exact fun h => hne h.symm), ih]
    · rw [if_neg hp]
      simp only [lookupTok]
      by_cases hk : p.1 = k
      · rw [if_pos hk, if_pos hk]
      · rw [if_neg hk, if_neg hk, ih]

theorem lookupTok_map_update_of_any {kv : String × Int} {k : String} :
    ∀ m : TokenMap, m.any (fun p => p.1 = kv.1) = true →
    lookupTok (m.map fun p => if p.1 = kv.1 then (p.1, p.2 + kv.2) else p) k
      = lookupTok m k + (if kv.1 = k then kv.2 else 0) := by
  intro m
  induction m with
  | nil => intro h; cases h
  | cons p rest ih =>
    intro hany
    by_cases hkk : kv.1 = k
    · simp only [List.map_cons]
      by_cases hp : p.1 = kv.1
      · rw [if_pos hp]
        simp only [lookupTok]
        rw [if_pos (hp.trans hkk), if_pos (hp.trans hkk), if_pos hkk]
      · rw [if_neg hp]
        simp only [lookupTok]
        have hpk : p.1 ≠ k := fun h => hp (h.trans hkk.symm)
        rw [if_neg hpk, if_neg hpk]
        have hrest : rest.any (fun p => p.1 = kv.1) = true := by
          rcases List.any_eq_true.mp hany with ⟨x, hx, hxe⟩
          have hxe' : x.1 = kv.1 := of_decide_eq_true hxe
          rcases List.mem_cons.mp hx with h1 | h2
          · exact absurd (h1 ▸ hxe') hp
          · exact List.any_eq_true.mpr ⟨x, h2, hxe⟩
        exact ih hrest
    · rw [lookupTok_map_update_of_ne (fun h => hkk h.symm), if_neg hkk, Int.add_zero]

theorem lookupTok_append_of_not_any {m2 : TokenMap} {k : String} :
    ∀ m : TokenMap, lookupTok (m ++ m2) k
      = if k ∈ m.map Prod.fst then lookupTok m k else lookupTok m2 k := by
  intro m
  induction m with
  | nil => simp [lookupTok]
  | cons p rest ih =>
    by_cases hp : p.1 = k
    · have hk : k ∈ (p :: rest).map Prod.fst := by simp [hp.symm]
      rw [List.cons_append]
      simp only [lookupTok]
      rw [if_pos hp, if_pos hk, if_pos hp]
    · have step1 : lookupTok (p :: rest ++ m2) k = lookupTok (rest ++ m2) k := by
        rw [List.cons_append]
        simp only [lookupTok]
        rw [if_neg hp]
      rw [step1, ih]
      by_cases hk : k ∈ rest.map Prod.fst
      · rw [if_pos hk, if_pos (by simp [hk])]
        simp only [lookupTok]
        rw [if_neg hp]
      · rw [if_neg hk, if_neg (by
          simp only [List.map_cons, List.mem_cons]
          push_neg
          exact ⟨fun h => hp h.symm, hk⟩)]

theorem lookupTok_dictAdd (acc : TokenMap) (kv : String × Int) (k : String) :
    lookupTok (dictAdd acc kv) k
      = lookupTok acc k + (if kv.1 = k then kv.2 else 0) := by
  unfold dictAdd
  by_cases hany : acc.any (fun p => p.1 = kv.1) = true
  · rw [if_pos hany, lookupTok_map_update_of_any acc hany]
  · rw [if_neg hany, lookupTok_append_of_not_any]
    have hnot : kv.1 ∉ acc.map Prod.fst := by
      intro hmem
      rcases List.mem_map.mp hmem with ⟨p, hp, hpe⟩
      exact hany (List.any_eq_true.mpr ⟨p, hp, by simp [hpe]⟩)
    by_cases hk : k ∈ acc.map Prod.fst
    · rw [if_pos hk, if_neg (fun h : kv.1 = k => hnot (h ▸ hk)), Int.add_zero]
    · rw [if_neg hk, lookupTok_eq_zero_of_not_mem hk, Int.zero_add]
      simp [lookupTok]

theorem dictAdd_keys_nodup {acc : TokenMap} (kv : String × Int)
    (h : (acc.map Prod.fst).Nodup) : ((dictAdd acc kv).map Prod.fst).Nodup := by
  unfold dictAdd
  by_cases hany : acc.any (fun p => p.1 = kv.1) = true
  · rw [if_pos hany, List.map_map]
    have : acc.map (Prod.fst ∘ fun p => if p.1 = kv.1 then (p.1, p.2 + kv.2) else p)
        = acc.map Prod.fst := by
      apply List.map_congr_left
      intro p _
      by_cases hp : p.1 = kv.1 <;> simp [hp]
    rw [this]; exact h
  · rw [if_neg hany, List.map_append]
    refine List.Nodup.append h (by simp) ?_
    intro a ha hb
    simp only [List.map_cons, List.map_nil, List.mem_singleton] at hb
    subst hb
    rcases List.mem_map.mp ha with ⟨p, hp, hpe⟩
    exact hany (List.any_eq_true.mpr ⟨p, hp, by simp [hpe]⟩)

theorem foldl_dictAdd_keys_nodup :
    ∀ (m acc : TokenMap), (acc.map Prod.fst).Nodup →
      ((m.foldl dictAdd acc).map Prod.fst).Nodup := by
  intro m
  induction m with
  | nil => intro acc h; exact h
  | cons kv rest ih =>
    intro acc h
    rw [List.foldl_cons]
    exact ih _ (dictAdd_keys_nodup kv h)

theorem foldl_dictAdd_lookup (k : String) :
    ∀ (m acc : TokenMap), (m.map Prod.fst).Nodup →
      lookupTok (m.foldl dictAdd acc) k = lookupTok acc k + lookupTok m k := by
  intro m
  induction m with
  | nil => intro acc _; simp [lookupTok]
  | cons kv rest ih =>
    intro acc hnodup
    rw [List.foldl_cons]
    have hnodup' : (kv.1 :: rest.map Prod.fst).Nodup := by simpa using hnodup
    have hrest : (rest.map Prod.fst).Nodup := hnodup'.of_cons
    rw [ih _ hrest, lookupTok_dictAdd]
    simp only [lookupTok]
    by_cases hk : kv.1 = k
    · rw [if_pos hk, if_pos hk]
      have hknot : k ∉ rest.map Prod.fst :=
        hk ▸ (List.nodup_cons.mp hnodup').1
      rw [lookupTok_eq_zero_of_not_mem hknot]
      omega
    · rw [if_neg hk, if_neg hk]
      omega

theorem dictMergeAll_keys_nodup (ms : List TokenMap) :
    ((dictMergeAll ms).map Prod.fst).Nodup := by
  unfold dictMergeAll
  suffices h : ∀ (l : List TokenMap) (acc : TokenMap), (acc.map Prod.fst).Nodup →
      ((l.foldl (fun acc m => m.foldl dictAdd acc) acc).map Prod.fst).Nodup from
    h ms [] (by simp)
  intro l
  induction l with
  | nil => intro acc h; exact h
  | cons m rest ih =>
    intro acc h
    rw [List.foldl_cons]
    exact ih _ (foldl_dictAdd_keys_nodup m acc h)

theorem dictMergeAll_lookup (k : String) :
    ∀ ms : List TokenMap, (∀ m ∈ ms, (m.map Prod.fst).Nodup) →
      lookupTok (dictMergeAll ms) k = (ms.map fun m => lookupTok m k).sum := by
  unfold dictMergeAll
  suffices h : ∀ (l : List TokenMap) (acc : TokenMap),
      (∀ m ∈ l, (m.map Prod.fst).Nodup) →
      lookupTok (l.foldl (fun acc m => m.foldl dictAdd acc) acc) k
        = lookupTok acc k + (l.map fun m => lookupTok m k).sum by
    intro ms hms
    rw [h ms [] hms]
    simp [lookupTok]
  intro l
  induction l with
  | nil => intro acc _; simp
  | cons m rest ih =>
    intro acc hl
    rw [List.foldl_cons, ih _ (fun x hx => hl x (by simp [hx])),
        foldl_dictAdd_lookup k m acc (hl m (by simp))]
    simp only [List.map_cons, List.sum_cons]
    omega

/-! ## Structural tree lemmas -/

theorem size_sum_append (l1 l2 : List FileSystemNode) :
    size_sum (l1 ++ l2) = size_sum l1 + size_sum l2 := by
  induction l1 with
  | nil => simp [size_sum]
  | cons c cs ih =>
    rw [List.cons_append]
    simp only [size_sum]
    rw [ih]
    omega

theorem tokens_list_append (l1 l2 : List FileSystemNode) :
    tokens_list (l1 ++ l2) = tokens_list l1 ++ tokens_list l2 := by
  induction l1 with
  | nil => simp [tokens_list]
  | cons c cs ih => simp [tokens_list, ih]

/-- Locating the first child with a given name: the children list splits as
`l1 ++ c :: l2` with no `seg`-named node in `l1`, and `replace_first_child`
substitutes exactly that position. -/
theorem find_name_split (seg : String) :
    ∀ (ch : List FileSystemNode) (c : FileSystemNode),
      ch.find? (fun x => x.name = seg) = some c →
      ∃ l1 l2, ch = l1 ++ c :: l2 ∧ (∀ x ∈ l1, x.name ≠ seg) ∧ c.name = seg ∧
        ∀ c', replace_first_child seg c' ch = l1 ++ c' :: l2 := by
  intro ch
  induction ch with
  | nil => intro c h; cases h
  | cons x rest ih =>
    intro c h
    by_cases hx : x.name = seg
    · have hfind : (x :: rest).find? (fun y => y.name = seg) = some x :=
        List.find?_cons_of_pos _ (by simp [hx])
      rw [hfind] at h
      cases h
      refine ⟨[], rest, by simp, by simp, hx, ?_⟩
      intro c'
      simp [replace_first_child, hx]
    · have hfind : (x :: rest).find? (fun y => y.name = seg)
          = rest.find? (fun y => y.name = seg) :=
        List.find?_cons_of_neg _ (by simp [hx])
      rw [hfind] at h
      rcases ih c h with ⟨l1, l2, hche, hl1, hcn, hrep⟩
      refine ⟨x :: l1, l2, by simp [hche], ?_, hcn, ?_⟩
      · intro y hy
        rcases List.mem_cons.mp hy with h1 | h2
        · exact h1 ▸ hx
        · exact hl1 y h2
      · intro c'
        simp [replace_first_child, hx, hrep c']

/-- Reading at a path does not change the value the root's `size` property
returns. -/
theorem size_value_read_at : ∀ (p : List String) (t : FileSystemNode),
    size_value (read_at p t) = size_value t := by
  intro p
  induction p with
  | nil => exact size_value_read_node
  | cons seg rest ih =>
    intro t
    rcases t with ⟨nm, isDir, rp, ext, ch, fl, fs, ft, agg, aggT, dirty⟩
    rcases hf : ch.find? (fun x => x.name = seg) with _ | c
    · simp [read_at, hf]
    · rcases find_name_split seg ch c hf with ⟨l1, l2, hche, _, _, hrep⟩
      have hra : read_at (seg :: rest) (.mk nm isDir rp ext ch fl fs ft agg aggT dirty)
          = .mk nm isDir rp ext (l1 ++ read_at rest c :: l2) fl fs ft agg aggT dirty := by
        simp [read_at, hf, hrep]
      rw [hra, hche]
      simp only [size_value]
      rcases isDir
      · rfl
      · rcases dirty
        · rfl
        · simp only [size_sum_append, size_sum, ih c]

/-- Reading at a path does not change the value the root's `tokens` property
returns. -/
theorem tokens_value_read_at : ∀ (p : List String) (t : FileSystemNode),
    tokens_value (read_at p t) = tokens_value t := by
  intro p
  induction p with
  | nil => exact tokens_value_read_node
  | cons seg rest ih =>
    intro t
    rcases t with ⟨nm, isDir, rp, ext, ch, fl, fs, ft, agg, aggT, dirty⟩
    rcases hf : ch.find? (fun x => x.name = seg) with _ | c
    · simp [read_at, hf]
    · rcases find_name_split seg ch c hf with ⟨l1, l2, hche, _, _, hrep⟩
      have hra : read_at (seg :: rest) (.mk nm isDir rp ext ch fl fs ft agg aggT dirty)
          = .mk nm isDir rp ext (l1 ++ read_at rest c :: l2) fl fs ft agg aggT dirty := by
        simp [read_at, hf, hrep]
      rw [hra, hche]
      simp only [tokens_value]
      rcases isDir
      · rfl
      · rcases dirty
        · rfl
        · simp only [tokens_list_append, tokens_list, ih c]

/-- The readable token map of any node satisfying the invariant has
pairwise-distinct keys. -/
theorem tokens_value_keys_nodup : ∀ t, Inv t →
    ((tokens_value t).map Prod.fst).Nodup := by
  intro t h
  rcases t with ⟨nm, isDir, rp, ext, ch, fl, fs, ft, agg, aggT, dirty⟩
  cases h with
  | mk _ _ _ _ _ _ _ _ _ _ _ hft haggT hclean hch =>
    simp only [tokens_value]
    rcases isDir
    · exact hft
    · rcases dirty
      · exact haggT
      · exact dictMergeAll_keys_nodup _

/-- Reading a node preserves the aggregate invariant. -/
theorem Inv_read_node : ∀ t, Inv t → Inv (read_node t) := by
  intro t
  induction t using FileSystemNode.inductOn with
  | h nm isDir rp ext ch fl fs ft agg aggT dirty ih =>
    intro h
    cases h with
    | mk _ _ _ _ _ _ _ _ _ _ _ hft haggT hclean hch =>
      rcases isDir
      · rw [show read_node (.mk nm false rp ext ch fl fs ft agg aggT dirty)
            = .mk nm false rp ext ch fl fs ft agg aggT dirty from by simp [read_node]]
        exact Inv.mk _ _ _ _ _ _ _ _ _ _ _ hft haggT hclean hch
      · rcases dirty
        · rw [show read_node (.mk nm true rp ext ch fl fs ft agg aggT false)
              = .mk nm true rp ext ch fl fs ft agg aggT false from by simp [read_node]]
          exact Inv.mk _ _ _ _ _ _ _ _ _ _ _ hft haggT hclean hch
        · rw [show read_node (.mk nm true rp ext ch fl fs ft agg aggT true)
              = .mk nm true rp ext (read_list ch) fl fs ft (size_sum (read_list ch))
                  (dictMergeAll (tokens_list (read_list ch))) false from by simp [read_node]]
          refine Inv.mk _ _ _ _ _ _ _ _ _ _ _ hft (dictMergeAll_keys_nodup _)
            (fun _ _ => ⟨rfl, rfl⟩) ?_
          intro c' hc'
          rw [read_list_eq_map] at hc'
          rcases List.mem_map.mp hc' with ⟨c, hc, rfl⟩
          exact ih c hc (hch c hc)

/-- Reading at any path preserves the aggregate invariant. -/
theorem Inv_read_at : ∀ (p : List String) (t : FileSystemNode),
    Inv t → Inv (read_at p t) := by
  intro p
  induction p with
  | nil => exact Inv_read_node
  | cons seg rest ih =>
    intro t h
    rcases t with ⟨nm, isDir, rp, ext, ch, fl, fs, ft, agg, aggT, dirty⟩
    cases h with
    | mk _ _ _ _ _ _ _ _ _ _ _ hft haggT hclean hch =>
      rcases hf : ch.find? (fun x => x.name = seg) with _ | c
      · rw [show read_at (seg :: rest) (.mk nm isDir rp ext ch fl fs ft agg aggT dirty)
            = .mk nm isDir rp ext ch fl fs ft agg aggT dirty from by simp [read_at, hf]]
        exact Inv.mk _ _ _ _ _ _ _ _ _ _ _ hft haggT hclean hch
      · rcases find_name_split seg ch c hf with ⟨l1, l2, hche, _, _, hrep⟩
        have hcmem : c ∈ ch := by rw [hche]; simp
        rw [show read_at (seg :: rest) (.mk nm isDir rp ext ch fl fs ft agg aggT dirty)
            = .mk nm isDir rp ext (l1 ++ read_at rest c :: l2) fl fs ft agg aggT dirty from by
          simp [read_at, hf, hrep]]
        refine Inv.mk _ _ _ _ _ _ _ _ _ _ _ hft haggT ?_ ?_
        · intro hdir hdirt
          rcases hclean hdir hdirt with ⟨hs, htk⟩
          constructor
          · rw [hs, hche, size_sum_append, size_sum_append]
            simp only [size_sum, size_value_read_at rest c]
          · rw [htk, hche, tokens_list_append, tokens_list_append]
            simp only [tokens_list, tokens_value_read_at rest c]
        · intro x hx
          rcases List.mem_append.mp hx with h1 | h2
          · exact hch x (by rw [hche]; exact List.mem_append.mpr (Or.inl h1))
          · rcases List.mem_cons.mp h2 with h3 | h4
            · subst h3
              exact ih c (hch c hcmem)
            · exact hch x (by rw [hche]; simp [h4])

/-- `set_file_metrics` (with `mark_dirty_up`) preserves the aggregate
invariant, provided the supplied token map is a dictionary. -/
theorem Inv_set_file_metrics_at :
    ∀ (p : List String) (size? : Option Int) (tokens? : Option TokenMap)
      (t t' : FileSystemNode),
      (∀ m, tokens? = some m → ((m.map Prod.fst).Nodup : Prop)) → Inv t →
      set_file_metrics_at size? tokens? p t = some t' → Inv t' := by
  intro p
  induction p with
  | nil =>
    intro size? tokens? t t' htk h hset
    rcases t with ⟨nm, isDir, rp, ext, ch, fl, fs, ft, agg, aggT, dirty⟩
    cases h with
    | mk _ _ _ _ _ _ _ _ _ _ _ hft haggT hclean hch =>
      unfold set_file_metrics_at at hset
      rcases isDir
      · rw [if_neg (by simp)] at hset
        cases hset
        refine Inv.mk _ _ _ _ _ _ _ _ _ _ _ ?_ haggT (fun _ h => nomatch h) hch
        rcases htm : tokens? with _ | m
        · exact hft
        · exact htk m htm
      · rw [if_pos rfl] at hset
        cases hset
  | cons seg rest ih =>
    intro size? tokens? t t' htk h hset
    rcases t with ⟨nm, isDir, rp, ext, ch, fl, fs, ft, agg, aggT, dirty⟩
    cases h with
    | mk _ _ _ _ _ _ _ _ _ _ _ hft haggT hclean hch =>
      unfold set_file_metrics_at at hset
      rcases hf : ch.find? (fun x => x.name = seg) with _ | c
      · rw [hf] at hset; cases hset
      · rw [hf] at hset
        dsimp only at hset
        rcases hsc : set_file_metrics_at size? tokens? rest c with _ | c'
        · rw [hsc] at hset; cases hset
        · rw [hsc] at hset
          simp only [Option.map_some', Option.some.injEq] at hset
          subst hset
          rcases find_name_split seg ch c hf with ⟨l1, l2, hche, _, _, hrep⟩
          rw [hrep c']
          refine Inv.mk _ _ _ _ _ _ _ _ _ _ _ hft haggT (fun _ h => nomatch h) ?_
          intro x hx
          rcases List.mem_append.mp hx with h1 | h2
          · exact hch x (by rw [hche]; exact List.mem_append.mpr (Or.inl h1))
          · rcases List.mem_cons.mp h2 with h3 | h4
            · subst h3
              exact ih size? tokens? c x htk (hch c (by rw [hche]; simp)) hsc
            · exact hch x (by rw [hche]; simp [h4])

/-- `mark_flag` (with `mark_dirty_up`) preserves the aggregate invariant. -/
theorem Inv_mark_flag_at :
    ∀ (p : List String) (flag : String) (t t' : FileSystemNode),
      Inv t → mark_flag_at flag p t = some t' → Inv t' := by
  intro p
  induction p with
  | nil =>
    intro flag t t' h hset
    rcases t with ⟨nm, isDir, rp, ext, ch, fl, fs, ft, agg, aggT, dirty⟩
    cases h with
    | mk _ _ _ _ _ _ _ _ _ _ _ hft haggT hclean hch =>
      unfold mark_flag_at at hset
      cases hset
      exact Inv.mk _ _ _ _ _ _ _ _ _ _ _ hft haggT (fun _ h => nomatch h) hch
  | cons seg rest ih =>
    intro flag t t' h hset
    rcases t with ⟨nm, isDir, rp, ext, ch, fl, fs, ft, agg, aggT, dirty⟩
    cases h with
    | mk _ _ _ _ _ _ _ _ _ _ _ hft haggT hclean hch =>
      unfold mark_flag_at at hset
      rcases hf : ch.find? (fun x => x.name = seg) with _ | c
      · rw [hf] at hset; cases hset
      · rw [hf] at hset
        dsimp only at hset
        rcases hsc : mark_flag_at flag rest c with _ | c'
        · rw [hsc] at hset; cases hset
        · rw [hsc] at hset
          simp only [Option.map_some', Option.some.injEq] at hset
          subst hset
          rcases find_name_split seg ch c hf with ⟨l1, l2, hche, _, _, hrep⟩
          rw [hrep c']
          refine Inv.mk _ _ _ _ _ _ _ _ _ _ _ hft haggT (fun _ h => nomatch h) ?_
          intro x hx
          rcases List.mem_append.mp hx with h1 | h2
          · exact hch x (by rw [hche]; exact List.mem_append.mpr (Or.inl h1))
          · rcases List.mem_cons.mp h2 with h3 | h4
            · subst h3
              exact ih flag c x (hch c (by rw [hche]; simp)) hsc
            · exact hch x (by rw [hche]; simp [h4])

/-- After the eager post-order pass `recompute_aggregates`, the invariant
holds on any tree whose stored token maps are dictionaries. -/
theorem Inv_recompute_aggregates : ∀ t, TokensWF t → Inv (recompute_aggregates t) := by
  intro t
  induction t using FileSystemNode.inductOn with
  | h nm isDir rp ext ch fl fs ft agg aggT dirty ih =>
    intro h
    cases h with
    | mk _ _ _ _ _ _ _ _ _ _ _ hft haggT hch =>
      rcases isDir
      · rw [show recompute_aggregates (.mk nm false rp ext ch fl fs ft agg aggT dirty)
            = .mk nm false rp ext (recompute_aggregates_list ch) fl fs ft agg aggT dirty from by
          simp [recompute_aggregates]]
        refine Inv.mk _ _ _ _ _ _ _ _ _ _ _ hft haggT (fun h _ => nomatch h) ?_
        intro c' hc'
        rw [recompute_aggregates_list_eq_map] at hc'
        rcases List.mem_map.mp hc' with ⟨c, hc, rfl⟩
        exact ih c hc (hch c hc)
      · rw [show recompute_aggregates (.mk nm true rp ext ch fl fs ft agg aggT dirty)
            = .mk nm true rp ext (recompute_aggregates_list ch) fl fs ft
                (size_sum (recompute_aggregates_list ch))
                (dictMergeAll (tokens_list (recompute_aggregates_list ch))) false from by
          simp [recompute_aggregates]]
        refine Inv.mk _ _ _ _ _ _ _ _ _ _ _ hft (dictMergeAll_keys_nodup _)
          (fun _ _ => ⟨rfl, rfl⟩) ?_
        intro c' hc'
        rw [recompute_aggregates_list_eq_map] at hc'
        rcases List.mem_map.mp hc' with ⟨c, hc, rfl⟩
        exact ih c hc (hch c hc)

theorem TokensWF_new_node (nm : String) (d : Bool) (rp : List String) :
    TokensWF (new_node nm d rp) :=
  TokensWF.mk _ _ _ _ _ _ _ _ _ _ _ (by simp) (by simp)
    (fun c hc => absurd hc (List.not_mem_nil c))

/-- Inserting one entry preserves token-dictionary well-formedness. -/
theorem TokensWF_insert_entry :
    ∀ (parts : List String) (rec : FileRecord) (t t' : FileSystemNode),
      ((rec.tokens.map Prod.fst).Nodup : Prop) → TokensWF t →
      insert_entry rec parts t = some t' → TokensWF t' := by
  intro parts
  induction parts with
  | nil =>
    intro rec t t' hrec h hi
    rcases t with ⟨nm, isDir, rp, ext, ch, fl, fs, ft, agg, aggT, dirty⟩
    cases h with
    | mk _ _ _ _ _ _ _ _ _ _ _ hft haggT hch =>
      unfold insert_entry at hi
      rcases isDir
      · rw [if_neg (by simp)] at hi
        cases hi
        exact TokensWF.mk _ _ _ _ _ _ _ _ _ _ _ hrec haggT hch
      · rw [if_pos rfl] at hi
        cases hi
  | cons seg rest ih =>
    intro rec t t' hrec h hi
    rcases t with ⟨nm, isDir, rp, ext, ch, fl, fs, ft, agg, aggT, dirty⟩
    cases h with
    | mk _ _ _ _ _ _ _ _ _ _ _ hft haggT hch =>
      unfold insert_entry at hi
      rcases hf : ch.find? (fun x => x.name = seg) with _ | c
      · rw [hf] at hi
        dsimp only at hi
        rcases hins : insert_entry rec rest (new_node seg (rest ≠ []) (rp ++ [seg])) with _ | c'
        · rw [hins] at hi; cases hi
        · rw [hins] at hi
          simp only [Option.map_some', Option.some.injEq] at hi
          subst hi
          refine TokensWF.mk _ _ _ _ _ _ _ _ _ _ _ hft haggT ?_
          intro x hx
          rcases List.mem_append.mp hx with h1 | h2
          · exact hch x h1
          · rcases List.mem_cons.mp h2 with h3 | h4
            · subst h3
              exact ih rec _ x hrec (TokensWF_new_node _ _ _) hins
            · cases h4
      · rw [hf] at hi
        dsimp only at hi
        rcases hins : insert_entry rec rest c with _ | c'
        · rw [hins] at hi; cases hi
        · rw [hins] at hi
          simp only [Option.map_some', Option.some.injEq] at hi
          subst hi
          rcases find_name_split seg ch c hf with ⟨l1, l2, hche, _, _, hrep⟩
          rw [hrep c']
          refine TokensWF.mk _ _ _ _ _ _ _ _ _ _ _ hft haggT ?_
          intro x hx
          rcases List.mem_append.mp hx with h1 | h2
          · exact hch x (by rw [hche]; exact List.mem_append.mpr (Or.inl h1))
          · rcases List.mem_cons.mp h2 with h3 | h4
            · subst h3
              exact ih rec c x hrec (hch c (by rw [hche]; simp)) hins
            · exact hch x (by rw [hche]; simp [h4])

/-- The build fold preserves token-dictionary well-formedness. -/
theorem TokensWF_build_fold :
    ∀ (es : List (List String × FileRecord)) (t0 t1 : FileSystemNode),
      TokensWF t0 → (∀ e ∈ es, ((e.2.tokens.map Prod.fst).Nodup : Prop)) →
      List.foldlM (fun t e => insert_entry e.2 e.1 t) t0 es = some t1 →
      TokensWF t1 := by
  intro es
  induction es with
  | nil =>
    intro t0 t1 h _ hfold
    cases hfold
    exact h
  | cons e rest ih =>
    intro t0 t1 h hes hfold
    simp only [List.foldlM_cons] at hfold
    rcases hi : insert_entry e.2 e.1 t0 with _ | t0'
    · rw [hi] at hfold; cases hfold
    · rw [hi] at hfold
      simp only [Option.bind_eq_bind, Option.some_bind] at hfold
      exact ih t0' t1 (TokensWF_insert_entry e.1 e.2 t0 t0' (hes e (by simp)) h hi)
        (fun x hx => hes x (by simp [hx])) hfold

theorem TokensWF_root_node : TokensWF root_node :=
  TokensWF_new_node _ _ _

/-- Every reachable tree state satisfies the aggregate invariant. -/
theorem Inv_reachable : ∀ t, Reachable t → Inv t := by
  intro t h
  induction h with
  | build entries t hwf hb =>
    unfold build_tree at hb
    rcases hfold : List.foldlM (fun t e => insert_entry e.2 e.1 t) root_node entries with _ | t1
    · rw [hfold] at hb; cases hb
    · rw [hfold] at hb
      simp only [Option.map_some', Option.some.injEq] at hb
      subst hb
      exact Inv_recompute_aggregates t1
        (TokensWF_build_fold entries root_node t1 TokensWF_root_node hwf hfold)
  | set_metrics t p s? tk? t' _ htk hset ih =>
    exact Inv_set_file_metrics_at p s? tk? t t' htk ih hset
  | mark t p flag t' _ hset ih =>
    exact Inv_mark_flag_at p flag t t' ih hset
  | read t p _ ih =>
    exact Inv_read_at p t ih

theorem mem_all_nodes_list :
    ∀ (ch : List FileSystemNode) (n : FileSystemNode),
      n ∈ all_nodes_list ch ↔ ∃ c ∈ ch, n ∈ all_nodes c := by
  intro ch
  induction ch with
  | nil => intro n; simp [all_nodes_list]
  | cons c cs ih =>
    intro n
    simp only [all_nodes_list, List.mem_append, ih, List.mem_cons]
    constructor
    · rintro (h1 | ⟨x, hx, hnx⟩)
      · exact ⟨c, Or.inl rfl, h1⟩
      · exact ⟨x, Or.inr hx, hnx⟩
    · rintro ⟨x, hx | hx, hnx⟩
      · exact Or.inl (hx ▸ hnx)
      · exact Or.inr ⟨x, hx, hnx⟩

/-- The invariant passes to every node of the tree. -/
theorem Inv_of_mem_all_nodes : ∀ t, Inv t → ∀ n ∈ all_nodes t, Inv n := by
  intro t
  induction t using FileSystemNode.inductOn with
  | h nm isDir rp ext ch fl fs ft agg aggT dirty ih =>
    intro h n hn
    cases h with
    | mk _ _ _ _ _ _ _ _ _ _ _ hft haggT hclean hch =>
      rcases List.mem_cons.mp hn with h1 | h2
      · subst h1
        exact Inv.mk _ _ _ _ _ _ _ _ _ _ _ hft haggT hclean hch
      · rcases (mem_all_nodes_list ch n).mp h2 with ⟨c, hc, hnc⟩
        exact ih c hc (hch c hc) n hnc

theorem size_sum_eq_map_sum : ∀ l : List FileSystemNode,
    size_sum l = (l.map size_value).sum := by
  intro l
  induction l with
  | nil => rfl
  | cons c cs ih => simp [size_sum, ih]

/-- The per-node aggregate conclusion, from the invariant. -/
theorem dir_node_correct : ∀ n : FileSystemNode, Inv n → n.is_directory = true →
    (size_value n = (n.children.map size_value).sum ∧
     ∀ k, lookupTok (tokens_value n) k =
       (n.children.map fun c => lookupTok (tokens_value c) k).sum) ∧
    (n.dirty = false →
      n.aggregate_size = (n.children.map size_value).sum ∧
      ∀ k, lookupTok n.aggregate_tokens k =
        (n.children.map fun c => lookupTok (tokens_value c) k).sum) := by
  intro n h hdir
  rcases n with ⟨nm, isDir, rp, ext, ch, fl, fs, ft, agg, aggT, dirty⟩
  cases h with
  | mk _ _ _ _ _ _ _ _ _ _ _ hft haggT hclean hch =>
    have hisDir : isDir = true := hdir
    subst hisDir
    have hmerge : ∀ k, lookupTok (dictMergeAll (tokens_list ch)) k =
        (ch.map fun c => lookupTok (tokens_value c) k).sum := by
      intro k
      rw [dictMergeAll_lookup k (tokens_list ch) ?_, tokens_list_eq_map, List.map_map]
      · rfl
      · intro m hm
        rw [tokens_list_eq_map] at hm
        rcases List.mem_map.mp hm with ⟨c, hc, rfl⟩
        exact tokens_value_keys_nodup c (hch c hc)
    have hsize : size_value (.mk nm true rp ext ch fl fs ft agg aggT dirty)
        = if dirty then size_sum ch else agg := by
      simp [size_value]
    have htokv : tokens_value (.mk nm true rp ext ch fl fs ft agg aggT dirty)
        = if dirty then dictMergeAll (tokens_list ch) else aggT := by
      simp [tokens_value]
    constructor
    · constructor
      · show size_value _ = (ch.map size_value).sum
        rw [hsize]
        rcases dirty
        · rcases hclean rfl rfl with ⟨hs, _⟩
          rw [if_neg (by simp), hs, size_sum_eq_map_sum]
        · rw [if_pos rfl, size_sum_eq_map_sum]
      · intro k
        show lookupTok (tokens_value _) k = (ch.map fun c => lookupTok (tokens_value c) k).sum
        rw [htokv]
        rcases dirty
        · rcases hclean rfl rfl with ⟨_, htk2⟩
          rw [if_neg (by simp), htk2]
          exact hmerge k
        · rw [if_pos rfl]
          exact hmerge k
    · intro hdirt
      have hdirt' : dirty = false := hdirt
      subst hdirt'
      rcases hclean rfl rfl with ⟨hs, htk2⟩
      constructor
      · show agg = (ch.map size_value).sum
        rw [hs, size_sum_eq_map_sum]
      · intro k
        show lookupTok aggT k = (ch.map fun c => lookupTok (tokens_value c) k).sum
        rw [htk2]
        exact hmerge k

/-! ## Claim C3 -/

/-- Claim C3: in every tree state reachable by building from a FileRecord
map and applying any sequence of `set_file_metrics` / `mark_flag` mutations
and reads, every directory node's readable `size` equals the sum of its
direct children's readable sizes and its readable token count for each model
equals the key-wise sum over its direct children; moreover every clean
(`dirty = false`) directory caches exactly those sums in `aggregate_size`
and `aggregate_tokens`. -/
theorem c3_aggregate_invariant (t : FileSystemNode) (h : Reachable t) :
    dir_aggregates_correct t := by
  intro n hn hdir
  exact dir_node_correct n (Inv_of_mem_all_nodes t (Inv_reachable t h) n hn) hdir

/-- Witness for `c3_aggregate_invariant`: build a two-file tree, mutate one
leaf's size, and conclude the aggregate property for the resulting state. -/
theorem c3_aggregate_invariant_witness :
    dir_aggregates_correct ((set_file_metrics_at (some 9) none ["dir", "c.txt"]
      ((build_tree [(["a.txt"], ⟨10, [("chars-x", 2)], []⟩),
                    (["dir", "c.txt"], ⟨7, [], []⟩)]).getD root_node)).getD root_node) :=
  c3_aggregate_invariant _
    (Reachable.set_metrics _ ["dir", "c.txt"] (some 9) none _
      (Reachable.build [(["a.txt"], ⟨10, [("chars-x", 2)], []⟩),
                        (["dir", "c.txt"], ⟨7, [], []⟩)] _ (by decide) (by rfl))
      (fun m hm => nomatch hm)
      (by rfl))

/-! ## Round-trip lemmas (claim C7) -/

theorem mem_get_file_paths_mk
    {nm : String} {isDir : Bool} {rp : List String} {ext : String}
    {ch : List FileSystemNode} {fl : List String} {fs : Int} {ft : TokenMap}
    {agg : Int} {aggT : TokenMap} {dirty : Bool} {p : List String} :
    p ∈ get_file_paths (.mk nm isDir rp ext ch fl fs ft agg aggT dirty) ↔
      (isDir = false ∧ rp ≠ [] ∧ p = rp) ∨ ∃ c ∈ ch, p ∈ get_file_paths c := by
  unfold get_file_paths
  rw [show all_nodes (.mk nm isDir rp ext ch fl fs ft agg aggT dirty)
      = .mk nm isDir rp ext ch fl fs ft agg aggT dirty :: all_nodes_list ch from by
    simp [all_nodes]]
  rw [List.filterMap_cons]
  have hdval : node_path_entry (.mk nm isDir rp ext ch fl fs ft agg aggT dirty)
      = if (!isDir && rp ≠ []) = true then some rp else none := by
    unfold node_path_entry
    simp only [FileSystemNode.is_directory, FileSystemNode.relative_path]
  rw [hdval]
  constructor
  · intro hp
    by_cases hcond : (!isDir && decide (rp ≠ [])) = true
    · rw [if_pos hcond] at hp
      dsimp only at hp
      rcases List.mem_cons.mp hp with h1 | h2
      · simp only [Bool.and_eq_true, Bool.not_eq_true', decide_eq_true_eq] at hcond
        exact Or.inl ⟨hcond.1, hcond.2, h1⟩
      · rcases List.mem_filterMap.mp h2 with ⟨n, hn, hne⟩
        rcases (mem_all_nodes_list ch n).mp hn with ⟨c, hc, hnc⟩
        exact Or.inr ⟨c, hc, List.mem_filterMap.mpr ⟨n, hnc, hne⟩⟩
    · rw [if_neg hcond] at hp
      dsimp only at hp
      rcases List.mem_filterMap.mp hp with ⟨n, hn, hne⟩
      rcases (mem_all_nodes_list ch n).mp hn with ⟨c, hc, hnc⟩
      exact Or.inr ⟨c, hc, List.mem_filterMap.mpr ⟨n, hnc, hne⟩⟩
  · intro hp
    rcases hp with ⟨hdir, hrp, rfl⟩ | ⟨c, hc, hpc⟩
    · rw [if_pos (by simp [hdir, hrp])]
      dsimp only
      exact List.mem_cons_self _ _
    · have hmem : p ∈ (all_nodes_list ch).filterMap node_path_entry := by
        rcases List.mem_filterMap.mp hpc with ⟨n, hn, hne⟩
        exact List.mem_filterMap.mpr ⟨n, (mem_all_nodes_list ch n).mpr ⟨c, hc, hn⟩, hne⟩
      by_cases hcond : (!isDir && decide (rp ≠ [])) = true
      · rw [if_pos hcond]
        dsimp only
        exact List.mem_cons_of_mem _ hmem
      · rw [if_neg hcond]
        dsimp only
        exact hmem

/-- Weakening the inserted-path set of `Built` by a path that lies outside
the subtree's position. -/
theorem Built_extend {S : List (List String)} {pre k : List String}
    {t : FileSystemNode} (hnk : ¬ (pre <+: k)) (h : Built S pre t) :
    Built (S ++ [k]) pre t := by
  revert hnk
  induction h with
  | mk pre nm isDir ext ch fl fs ft agg aggT dirty hroot hiff hnoch hdirpre hnames hch ih =>
    intro hnk
    refine Built.mk _ _ _ _ _ _ _ _ _ _ _ _ hroot ?_ hnoch ?_ hnames ?_
    · intro hpre
      rw [hiff hpre]
      constructor
      · intro hmem
        exact List.mem_append.mpr (Or.inl hmem)
      · intro hmem
        rcases List.mem_append.mp hmem with h1 | h2
        · exact h1
        · rcases List.mem_singleton.mp h2 with rfl
          exact absurd (List.prefix_refl pre) hnk
    · intro hdir hpre
      rcases hdirpre hdir hpre with ⟨m, hm, hmp, hmne⟩
      exact ⟨m, List.mem_append.mpr (Or.inl hm), hmp, hmne⟩
    · intro c hc
      refine ih c hc ?_
      intro habs
      exact hnk ((List.prefix_append pre [c.name]).trans habs)

theorem Built_rp {S : List (List String)} {pre : List String}
    {t : FileSystemNode} (h : Built S pre t) : t.relative_path = pre := by
  cases h
  rfl

theorem Built_root_dir {S : List (List String)} {pre : List String}
    {t : FileSystemNode} (h : Built S pre t) (hpre : pre = []) :
    t.is_directory = true := by
  cases h with
  | mk _ _ _ _ _ _ _ _ _ _ _ hroot hiff hnoch hdirpre hnames hch =>
    exact hroot hpre

theorem Built_file_mem {S : List (List String)} {pre : List String}
    {t : FileSystemNode} (h : Built S pre t) (hf : t.is_directory = false) :
    pre ∈ S := by
  cases h with
  | mk _ _ _ _ _ _ _ _ _ _ _ hroot hiff hnoch hdirpre hnames hch =>
    by_cases hpre : pre = []
    · cases (hroot hpre).symm.trans hf
    · exact (hiff hpre).mp hf

theorem Built_dir_not_mem {S : List (List String)} {pre : List String}
    {t : FileSystemNode} (h : Built S pre t) (hd : t.is_directory = true)
    (hpre : pre ≠ []) : pre ∉ S := by
  cases h with
  | mk _ _ _ _ _ _ _ _ _ _ _ hroot hiff hnoch hdirpre hnames hch =>
    intro hmem
    cases ((hiff hpre).mpr hmem).symm.trans hd

theorem Built_dir_strict {S : List (List String)} {pre : List String}
    {t : FileSystemNode} (h : Built S pre t) (hd : t.is_directory = true)
    (hpre : pre ≠ []) : ∃ m ∈ S, pre <+: m ∧ pre ≠ m := by
  cases h with
  | mk _ _ _ _ _ _ _ _ _ _ _ hroot hiff hnoch hdirpre hnames hch =>
    exact hdirpre hd hpre

theorem Built_file_no_children {S : List (List String)} {pre : List String}
    {t : FileSystemNode} (h : Built S pre t) (hf : t.is_directory = false) :
    t.children = [] := by
  cases h with
  | mk _ _ _ _ _ _ _ _ _ _ _ hroot hiff hnoch hdirpre hnames hch =>
    exact hnoch hf

theorem Built_names_nodup {S : List (List String)} {pre : List String}
    {t : FileSystemNode} (h : Built S pre t) :
    (t.children.map FileSystemNode.name).Nodup := by
  cases h with
  | mk _ _ _ _ _ _ _ _ _ _ _ hroot hiff hnoch hdirpre hnames hch =>
    exact hnames

theorem Built_children {S : List (List String)} {pre : List String}
    {t : FileSystemNode} (h : Built S pre t) :
    ∀ c ∈ t.children, Built S (pre ++ [FileSystemNode.name c]) c := by
  cases h with
  | mk _ _ _ _ _ _ _ _ _ _ _ hroot hiff hnoch hdirpre hnames hch =>
    exact hch

/-- A list is never equal to itself extended by a non-empty suffix. -/
theorem ne_append_of_ne_nil {pre rest : List String} (h : rest ≠ []) :
    pre ≠ pre ++ rest := by
  intro he
  exact h (List.append_right_eq_self.mp he.symm)

/-- Inserting the remaining path segments below a freshly created node
produces exactly the fresh chain for that path. -/
theorem insert_fresh (rec : FileRecord) :
    ∀ (parts pre' : List String) (nm : String) (S : List (List String)),
      pre' ≠ [] →
      (∀ m ∈ S, ¬(m <+: pre' ++ parts ∧ m ≠ pre' ++ parts)) →
      ∃ t', insert_entry rec parts (new_node nm (parts ≠ []) pre') = some t' ∧
        Built (S ++ [pre' ++ parts]) pre' t' ∧
        t'.name = nm ∧
        (∀ p, p ∈ get_file_paths t' ↔ p = pre' ++ parts) := by
  intro parts
  induction parts with
  | nil =>
    intro pre' nm S hpre hS
    refine ⟨.mk nm (decide ¬(([] : List String) = [])) pre'
      (extract_extension (pre'.getLast?.getD "")) []
      (rec.flags.foldl (fun fl g => if g ∈ fl then fl else fl ++ [g]) [])
      rec.size rec.tokens 0 [] true, rfl, ?_, rfl, ?_⟩
    · rw [List.append_nil]
      refine Built.mk _ _ _ _ _ _ _ _ _ _ _ _ (fun h => absurd h hpre) ?_
        (fun _ => rfl) ?_ (by simp) ?_
      · intro _
        constructor
        · intro _
          exact List.mem_append.mpr (Or.inr (by simp))
        · intro _
          rfl
      · intro hd _
        cases hd
      · intro c hc
        cases hc
    · intro p
      rw [List.append_nil, mem_get_file_paths_mk]
      constructor
      · rintro (⟨_, _, hp⟩ | ⟨c, hc, _⟩)
        · exact hp
        · cases hc
      · intro hp
        exact Or.inl ⟨rfl, hpre, hp⟩
  | cons seg rest ih =>
    intro pre' nm S hpre hS
    have hk : (pre' ++ [seg]) ++ rest = pre' ++ (seg :: rest) := by
      rw [List.append_assoc]
      rfl
    rcases ih (pre' ++ [seg]) seg S (by simp) (by rw [hk]; exact hS) with
      ⟨c', hins, hBc', hnamec', hpathsc'⟩
    rw [hk] at hBc' hpathsc'
    have hkne : pre' ≠ pre' ++ (seg :: rest) := ne_append_of_ne_nil (by simp)
    have hknotS : pre' ∉ S := by
      intro hmem
      exact hS pre' hmem ⟨List.prefix_append pre' (seg :: rest), hkne⟩
    refine ⟨.mk nm (decide ¬(seg :: rest = [])) pre' "" ([] ++ [c']) [] 0 [] 0 [] true,
      ?_, ?_, rfl, ?_⟩
    · show insert_entry rec (seg :: rest) (new_node nm (decide ¬(seg :: rest = [])) pre')
        = some _
      have hstep : insert_entry rec (seg :: rest) (new_node nm (decide ¬(seg :: rest = [])) pre')
          = (insert_entry rec rest (new_node seg (decide (rest ≠ [])) (pre' ++ [seg]))).map
              (fun c' => .mk nm (decide ¬(seg :: rest = [])) pre' "" ([] ++ [c'])
                [] 0 [] 0 [] true) := rfl
      rw [hstep, hins]
      rfl
    · refine Built.mk _ _ _ _ _ _ _ _ _ _ _ _ (fun h => absurd h hpre) ?_ ?_ ?_ (by simp) ?_
      · intro _
        constructor
        · intro habs
          simp at habs
        · intro hmem
          rcases List.mem_append.mp hmem with h1 | h2
          · exact absurd h1 hknotS
          · exact absurd (List.mem_singleton.mp h2) hkne
      · intro habs
        simp at habs
      · intro _ _
        exact ⟨pre' ++ (seg :: rest), List.mem_append.mpr (Or.inr (by simp)),
          List.prefix_append _ _, hkne⟩
      · intro c hc
        rw [List.nil_append, List.mem_singleton] at hc
        subst hc
        rw [hnamec']
        exact hBc'
    · intro p
      rw [mem_get_file_paths_mk]
      constructor
      · rintro (⟨habs, _, _⟩ | ⟨c, hc, hpc⟩)
        · simp at habs
        · rw [List.nil_append, List.mem_singleton] at hc
          subst hc
          exact (hpathsc' p).mp hpc
      · intro hp
        refine Or.inr ⟨c', by simp, (hpathsc' p).mpr hp⟩

/-- Replacing the first child named `seg` by a node of the same name keeps
the sibling name list unchanged. -/
theorem replace_first_child_map_name {seg : String} {c' : FileSystemNode}
    (hname : c'.name = seg) :
    ∀ ch : List FileSystemNode,
      (replace_first_child seg c' ch).map FileSystemNode.name
        = ch.map FileSystemNode.name := by
  intro ch
  induction ch with
  | nil => rfl
  | cons c cs ih =>
    by_cases h : c.name = seg
    · simp only [replace_first_child]
      rw [if_pos h]
      simp [hname, h]
    · simp only [replace_first_child]
      rw [if_neg h]
      simp only [List.map_cons, ih]

theorem mem_replace_first_child {seg : String} {c c' : FileSystemNode}
    {ch : List FileSystemNode}
    (hfind : ch.find? (fun d => d.name = seg) = some c)
    (hnames : (ch.map FileSystemNode.name).Nodup) :
    ∀ d ∈ replace_first_child seg c' ch, d = c' ∨ (d ∈ ch ∧ d.name ≠ seg) := by
  induction ch with
  | nil => simp at hfind
  | cons a cs ih =>
    rw [List.map_cons] at hnames
    by_cases h : a.name = seg
    · simp only [replace_first_child]
      rw [if_pos h]
      intro d hd
      rcases List.mem_cons.mp hd with rfl | hdcs
      · exact Or.inl rfl
      · refine Or.inr ⟨List.mem_cons_of_mem _ hdcs, ?_⟩
        intro hds
        have hnd := (List.nodup_cons.mp hnames).1
        exact hnd (List.mem_map.mpr ⟨d, hdcs, hds.trans h.symm⟩)
    · rw [List.find?_cons_of_neg _ (by simp [h])] at hfind
      simp only [replace_first_child]
      rw [if_neg h]
      intro d hd
      rcases List.mem_cons.mp hd with rfl | hdr
      · exact Or.inr ⟨List.mem_cons_self _ _, h⟩
      · rcases ih hfind (List.nodup_cons.mp hnames).2 d hdr with
          h1 | ⟨h2, h3⟩
        · exact Or.inl h1
        · exact Or.inr ⟨List.mem_cons_of_mem _ h2, h3⟩

theorem self_mem_replace_first_child {seg : String} {c c' : FileSystemNode}
    {ch : List FileSystemNode}
    (hfind : ch.find? (fun d => d.name = seg) = some c) :
    c' ∈ replace_first_child seg c' ch := by
  induction ch with
  | nil => simp at hfind
  | cons a cs ih =>
    by_cases h : a.name = seg
    · simp only [replace_first_child]
      rw [if_pos h]
      exact List.mem_cons_self _ _
    · rw [List.find?_cons_of_neg _ (by simp [h])] at hfind
      simp only [replace_first_child]
      rw [if_neg h]
      exact List.mem_cons_of_mem _ (ih hfind)

/-- With pairwise distinct sibling names, the child `find?` locates is the
only child with that name. -/
theorem find_eq_of_name_mem {seg : String} {c d : FileSystemNode}
    {ch : List FileSystemNode}
    (hfind : ch.find? (fun x => x.name = seg) = some c)
    (hnames : (ch.map FileSystemNode.name).Nodup)
    (hd : d ∈ ch) (hds : d.name = seg) : d = c := by
  induction ch with
  | nil => cases hd
  | cons a cs ih =>
    rw [List.map_cons] at hnames
    by_cases h : a.name = seg
    · rw [@List.find?_cons_of_pos _ (fun x => decide (FileSystemNode.name x = seg))
          a cs (decide_eq_true h)] at hfind
      have hac := Option.some.inj hfind
      rcases List.mem_cons.mp hd with rfl | hdcs
      · exact hac
      · have hnd := (List.nodup_cons.mp hnames).1
        exact absurd (List.mem_map.mpr ⟨d, hdcs, hds.trans h.symm⟩) hnd
    · rw [List.find?_cons_of_neg _ (by simp [h])] at hfind
      rcases List.mem_cons.mp hd with rfl | hdcs
      · exact absurd hds h
      · exact ih hfind (List.nodup_cons.mp hnames).2 hdcs

theorem mem_replace_of_ne {seg : String} {c' d : FileSystemNode}
    {ch : List FileSystemNode}
    (hd : d ∈ ch) (hds : d.name ≠ seg) :
    d ∈ replace_first_child seg c' ch := by
  induction ch with
  | nil => cases hd
  | cons a cs ih =>
    by_cases h : a.name = seg
    · simp only [replace_first_child]
      rw [if_pos h]
      rcases List.mem_cons.mp hd with rfl | hdcs
      · exact absurd h hds
      · exact List.mem_cons_of_mem _ hdcs
    · simp only [replace_first_child]
      rw [if_neg h]
      rcases List.mem_cons.mp hd with rfl | hdcs
      · exact List.mem_cons_self _ _
      · exact List.mem_cons_of_mem _ (ih hdcs)

/-- The effect of one `_insert_file` call on a built tree: inserting a fresh
path (not an inserted path, not a prefix of one, no inserted path strictly
below it in the prefix order) succeeds, preserves the structural invariant
with the path added, and adds exactly that path to `get_file_paths`. -/
theorem insert_entry_spec (rec : FileRecord) :
    ∀ (parts pre : List String) (t : FileSystemNode) (S : List (List String)),
      Built S pre t →
      t.is_directory = true →
      parts ≠ [] →
      (∀ m ∈ S, ¬((pre ++ parts) <+: m)) →
      (∀ m ∈ S, ¬(m <+: pre ++ parts ∧ m ≠ pre ++ parts)) →
      ∃ t', insert_entry rec parts t = some t' ∧
        Built (S ++ [pre ++ parts]) pre t' ∧
        t'.name = t.name ∧
        (∀ p, p ∈ get_file_paths t' ↔ p ∈ get_file_paths t ∨ p = pre ++ parts) := by
  intro parts
  induction parts with
  | nil =>
    intro pre t S _ _ habs
    exact absurd rfl habs
  | cons seg rest ih =>
    intro pre t S hB hdir _ hnosup hnopre
    obtain ⟨nm, isDir, rp, ext, ch, fl, fs, ft, agg, aggT, dirty⟩ := t
    have hrp : pre = rp := (Built_rp hB).symm
    subst hrp
    have hisDir : isDir = true := hdir
    subst hisDir
    have hnamesB : (ch.map FileSystemNode.name).Nodup := Built_names_nodup hB
    have hchB : ∀ c ∈ ch, Built S (pre ++ [FileSystemNode.name c]) c :=
      Built_children hB
    have hk' : pre ++ [seg] ++ rest = pre ++ seg :: rest := by
      rw [List.append_assoc]
      rfl
    cases hfind : ch.find? (fun c => c.name = seg) with
    | some c =>
      have hcch : c ∈ ch := List.mem_of_find?_eq_some hfind
      have hcname : c.name = seg := by
        have := List.find?_some hfind
        simpa using this
      have hBc : Built S (pre ++ [seg]) c := by
        have := hchB c hcch
        rwa [hcname] at this
      by_cases hrest : rest = []
      · exfalso
        subst hrest
        cases hcdv : c.is_directory
        · have hmem : pre ++ [seg] ∈ S := Built_file_mem hBc hcdv
          exact hnosup _ hmem (List.prefix_refl _)
        · rcases Built_dir_strict hBc hcdv (by simp) with ⟨m, hm, hmp, _⟩
          exact hnosup m hm hmp
      · have hcd : c.is_directory = true := by
          cases hcdv : c.is_directory
          · exfalso
            have hmem : pre ++ [seg] ∈ S := Built_file_mem hBc hcdv
            refine hnopre _ hmem ⟨?_, ?_⟩
            · rw [← hk']
              exact List.prefix_append _ _
            · rw [← hk']
              exact ne_append_of_ne_nil hrest
          · rfl
        rcases ih (pre ++ [seg]) c S hBc hcd hrest
            (by intro m hm; rw [hk']; exact hnosup m hm)
            (by intro m hm; rw [hk']; exact hnopre m hm) with
          ⟨c', hins, hBc', hnamec', hpathsc'⟩
        rw [hk'] at hBc'
        simp only [hk'] at hpathsc'
        have hstep : insert_entry rec (seg :: rest)
            (.mk nm true pre ext ch fl fs ft agg aggT dirty)
            = match ch.find? (fun c => c.name = seg) with
              | some c => (insert_entry rec rest c).map fun c' =>
                  .mk nm true pre ext (replace_first_child seg c' ch)
                    fl fs ft agg aggT true
              | none =>
                  (insert_entry rec rest
                      (new_node seg (rest ≠ []) (pre ++ [seg]))).map fun c' =>
                    .mk nm true pre ext (ch ++ [c']) fl fs ft agg aggT true := rfl
        rw [hfind] at hstep
        dsimp only at hstep
        rw [hins] at hstep
        simp only [Option.map_some'] at hstep
        refine ⟨_, hstep, ?_, rfl, ?_⟩
        · refine Built.mk _ _ _ _ _ _ _ _ _ _ _ _ (fun _ => rfl) ?_ ?_ ?_ ?_ ?_
          · intro hpre
            constructor
            · intro habs
              simp at habs
            · intro hmem
              exfalso
              rcases List.mem_append.mp hmem with h1 | h2
              · exact Built_dir_not_mem hB rfl hpre h1
              · exact ne_append_of_ne_nil (by simp) (List.mem_singleton.mp h2)
          · intro habs
            simp at habs
          · intro _ hpre
            exact ⟨pre ++ (seg :: rest), List.mem_append.mpr (Or.inr (by simp)),
              List.prefix_append _ _, ne_append_of_ne_nil (by simp)⟩
          · rw [replace_first_child_map_name (hnamec'.trans hcname)]
            exact hnamesB
          · intro d hd
            rcases mem_replace_first_child hfind hnamesB d hd with rfl | ⟨hdch, hdne⟩
            · rw [show FileSystemNode.name d = seg from hnamec'.trans hcname]
              exact hBc'
            · refine Built_extend ?_ (hchB d hdch)
              intro habs
              have h2 : [FileSystemNode.name d] <+: seg :: rest :=
                (List.prefix_append_right_inj pre).mp habs
              exact hdne (List.cons_prefix_cons.mp h2).1
        · intro p
          rw [mem_get_file_paths_mk, mem_get_file_paths_mk]
          constructor
          · rintro (⟨habs, _⟩ | ⟨d, hd, hpd⟩)
            · simp at habs
            · rcases mem_replace_first_child hfind hnamesB d hd with rfl | ⟨hdch, _⟩
              · rcases (hpathsc' p).mp hpd with h1 | h2
                · exact Or.inl (Or.inr ⟨c, hcch, h1⟩)
                · exact Or.inr h2
              · exact Or.inl (Or.inr ⟨d, hdch, hpd⟩)
          · rintro ((⟨habs, _⟩ | ⟨d, hd, hpd⟩) | rfl)
            · simp at habs
            · by_cases hdn : FileSystemNode.name d = seg
              · rw [find_eq_of_name_mem hfind hnamesB hd hdn] at hpd
                exact Or.inr ⟨c', self_mem_replace_first_child hfind,
                  (hpathsc' p).mpr (Or.inl hpd)⟩
              · exact Or.inr ⟨d, mem_replace_of_ne hd hdn, hpd⟩
            · exact Or.inr ⟨c', self_mem_replace_first_child hfind,
                (hpathsc' _).mpr (Or.inr rfl)⟩
    | none =>
      have hnone : ∀ d ∈ ch, FileSystemNode.name d ≠ seg := by
        intro d hd
        have := List.find?_eq_none.mp hfind d hd
        simpa using this
      rcases insert_fresh rec rest (pre ++ [seg]) seg S (by simp)
          (by intro m hm; rw [hk']; exact hnopre m hm) with
        ⟨c', hins, hBc', hnamec', hpathsc'⟩
      rw [hk'] at hBc'
      simp only [hk'] at hpathsc'
      have hstep : insert_entry rec (seg :: rest)
          (.mk nm true pre ext ch fl fs ft agg aggT dirty)
          = match ch.find? (fun c => c.name = seg) with
            | some c => (insert_entry rec rest c).map fun c' =>
                .mk nm true pre ext (replace_first_child seg c' ch)
                  fl fs ft agg aggT true
            | none =>
                (insert_entry rec rest
                    (new_node seg (rest ≠ []) (pre ++ [seg]))).map fun c' =>
                  .mk nm true pre ext (ch ++ [c']) fl fs ft agg aggT true := rfl
      rw [hfind] at hstep
      dsimp only at hstep
      rw [hins] at hstep
      simp only [Option.map_some'] at hstep
      refine ⟨_, hstep, ?_, rfl, ?_⟩
      · refine Built.mk _ _ _ _ _ _ _ _ _ _ _ _ (fun _ => rfl) ?_ ?_ ?_ ?_ ?_
        · intro hpre
          constructor
          · intro habs
            simp at habs
          · intro hmem
            exfalso
            rcases List.mem_append.mp hmem with h1 | h2
            · exact Built_dir_not_mem hB rfl hpre h1
            · exact ne_append_of_ne_nil (by simp) (List.mem_singleton.mp h2)
        · intro habs
          simp at habs
        · intro _ hpre
          exact ⟨pre ++ (seg :: rest), List.mem_append.mpr (Or.inr (by simp)),
            List.prefix_append _ _, ne_append_of_ne_nil (by simp)⟩
        · rw [List.map_append]
          refine List.nodup_append.mpr ⟨hnamesB, List.nodup_singleton _, ?_⟩
          intro a ha ha'
          rcases List.mem_map.mp ha with ⟨d, hd, rfl⟩
          have ha2 : FileSystemNode.name d = FileSystemNode.name c' := by
            simpa using ha'
          exact hnone d hd (ha2.trans hnamec')
        · intro d hd
          rcases List.mem_append.mp hd with hdch | hdc'
          · refine Built_extend ?_ (hchB d hdch)
            intro habs
            have h2 : [FileSystemNode.name d] <+: seg :: rest :=
              (List.prefix_append_right_inj pre).mp habs
            exact hnone d hdch (List.cons_prefix_cons.mp h2).1
          · rw [List.mem_singleton.mp hdc',
              show FileSystemNode.name c' = seg from hnamec']
            exact hBc'
      · intro p
        rw [mem_get_file_paths_mk, mem_get_file_paths_mk]
        constructor
        · rintro (⟨habs, _⟩ | ⟨d, hd, hpd⟩)
          · simp at habs
          · rcases List.mem_append.mp hd with hdch | hdc'
            · exact Or.inl (Or.inr ⟨d, hdch, hpd⟩)
            · rw [List.mem_singleton.mp hdc'] at hpd
              exact Or.inr ((hpathsc' p).mp hpd)
        · rintro ((⟨habs, _⟩ | ⟨d, hd, hpd⟩) | rfl)
          · simp at habs
          · exact Or.inr ⟨d, List.mem_append.mpr (Or.inl hd), hpd⟩
          · exact Or.inr ⟨c', List.mem_append.mpr (Or.inr (by simp)),
              (hpathsc' _).mpr rfl⟩

/-- The initial root node satisfies the structural invariant for the empty
inserted set. -/
theorem Built_root_node : Built [] [] root_node := by
  show Built [] [] (.mk "" true [] "" [] [] 0 [] 0 [] true)
  refine Built.mk _ _ _ _ _ _ _ _ _ _ _ _ (fun _ => rfl) ?_ ?_ ?_ ?_ ?_
  · intro habs
    exact absurd rfl habs
  · intro habs
    simp at habs
  · intro _ habs
    exact absurd rfl habs
  · simp
  · intro c hc
    cases hc

/-- Folding a list of fresh, pairwise prefix-incomparable entries into a
built tree succeeds and adds exactly their paths. -/
theorem build_fold_spec :
    ∀ (entries : List (List String × FileRecord)) (t : FileSystemNode)
      (S : List (List String)),
      Built S [] t →
      (∀ e ∈ entries, e.1 ≠ []) →
      (∀ e ∈ entries, ∀ m ∈ S, ¬(e.1 <+: m) ∧ ¬(m <+: e.1 ∧ m ≠ e.1)) →
      List.Pairwise (fun k1 k2 => ¬(k1 <+: k2) ∧ ¬(k2 <+: k1))
        (entries.map Prod.fst) →
      ∃ t', entries.foldlM (fun t e => insert_entry e.2 e.1 t) t = some t' ∧
        Built (S ++ entries.map Prod.fst) [] t' ∧
        (∀ p, p ∈ get_file_paths t' ↔
          p ∈ get_file_paths t ∨ p ∈ entries.map Prod.fst) := by
  intro entries
  induction entries with
  | nil =>
    intro t S hB _ _ _
    refine ⟨t, rfl, ?_, ?_⟩
    · simpa using hB
    · intro p
      simp
  | cons e es ih =>
    intro t S hB hne hfresh hpw
    have hdir : t.is_directory = true := Built_root_dir hB rfl
    rcases insert_entry_spec e.2 e.1 [] t S hB hdir (hne e (List.mem_cons_self _ _))
        (by
          intro m hm
          rw [List.nil_append]
          exact (hfresh e (List.mem_cons_self _ _) m hm).1)
        (by
          intro m hm
          rw [List.nil_append]
          exact (hfresh e (List.mem_cons_self _ _) m hm).2) with
      ⟨t1, hins, hB1, _, hpaths1⟩
    rw [List.nil_append] at hB1
    simp only [List.nil_append] at hpaths1
    rw [List.map_cons] at hpw
    have hpwh := (List.pairwise_cons.mp hpw).1
    have hpwt := (List.pairwise_cons.mp hpw).2
    rcases ih t1 (S ++ [e.1]) hB1
        (fun e' he' => hne e' (List.mem_cons_of_mem _ he'))
        (by
          intro e' he' m hm
          rcases List.mem_append.mp hm with hm1 | hm2
          · exact hfresh e' (List.mem_cons_of_mem _ he') m hm1
          · rw [List.mem_singleton.mp hm2]
            have h2 := hpwh e'.1 (List.mem_map.mpr ⟨e', he', rfl⟩)
            exact ⟨h2.2, fun hc => h2.1 hc.1⟩)
        hpwt with ⟨t', hins', hB', hpaths'⟩
    have hfold : (e :: es).foldlM (fun t e => insert_entry e.2 e.1 t) t
        = (insert_entry e.2 e.1 t).bind
            (fun t1 => es.foldlM (fun t e => insert_entry e.2 e.1 t) t1) := rfl
    refine ⟨t', ?_, ?_, ?_⟩
    · rw [hfold, hins]
      exact hins'
    · rw [List.map_cons,
        show S ++ e.1 :: es.map Prod.fst = (S ++ [e.1]) ++ es.map Prod.fst from by
          rw [List.append_assoc]
          rfl]
      exact hB'
    · intro p
      rw [hpaths' p, List.map_cons]
      constructor
      · rintro (h1 | h2)
        · rcases (hpaths1 p).mp h1 with ha | hb
          · exact Or.inl ha
          · rw [hb]
            exact Or.inr (List.mem_cons_self _ _)
        · exact Or.inr (List.mem_cons_of_mem _ h2)
      · rintro (h1 | h2)
        · exact Or.inl ((hpaths1 p).mpr (Or.inl h1))
        · rcases List.mem_cons.mp h2 with he | h3
          · exact Or.inl ((hpaths1 p).mpr (Or.inr he))
          · exact Or.inr h3

/-- `recompute_aggregates` only rewrites the cached aggregate fields; it
keeps every node name. -/
theorem recompute_aggregates_name :
    ∀ t : FileSystemNode,
      FileSystemNode.name (recompute_aggregates t) = FileSystemNode.name t := by
  intro t
  obtain ⟨nm, isDir, rp, ext, ch, fl, fs, ft, agg, aggT, dirty⟩ := t
  cases isDir
  · rfl
  · rfl

/-- The set of file paths is untouched by the aggregate recomputation pass. -/
theorem mem_get_file_paths_recompute (p : List String) :
    ∀ t, p ∈ get_file_paths (recompute_aggregates t) ↔ p ∈ get_file_paths t := by
  refine FileSystemNode.inductOn ?_
  intro nm isDir rp ext ch fl fs ft agg aggT dirty ih
  have hiter : ∀ (agg' : Int) (aggT' : TokenMap) (dirty' : Bool),
      (p ∈ get_file_paths
        (.mk nm isDir rp ext (recompute_aggregates_list ch) fl fs ft agg' aggT' dirty') ↔
        p ∈ get_file_paths (.mk nm isDir rp ext ch fl fs ft agg aggT dirty)) := by
    intro agg' aggT' dirty'
    rw [mem_get_file_paths_mk, mem_get_file_paths_mk, recompute_aggregates_list_eq_map]
    constructor
    · rintro (h1 | ⟨c, hc, hpc⟩)
      · exact Or.inl h1
      · rcases List.mem_map.mp hc with ⟨d, hd, rfl⟩
        exact Or.inr ⟨d, hd, (ih d hd).mp hpc⟩
    · rintro (h1 | ⟨c, hc, hpc⟩)
      · exact Or.inl h1
      · exact Or.inr ⟨recompute_aggregates c, List.mem_map.mpr ⟨c, hc, rfl⟩,
          (ih c hc).mpr hpc⟩
  cases isDir
  · rw [show recompute_aggregates (.mk nm false rp ext ch fl fs ft agg aggT dirty)
        = .mk nm false rp ext (recompute_aggregates_list ch) fl fs ft agg aggT dirty from by
      simp [recompute_aggregates]]
    exact hiter agg aggT dirty
  · rw [show recompute_aggregates (.mk nm true rp ext ch fl fs ft agg aggT dirty)
        = .mk nm true rp ext (recompute_aggregates_list ch) fl fs ft
            (size_sum (recompute_aggregates_list ch))
            (dictMergeAll (tokens_list (recompute_aggregates_list ch))) false from by
      simp [recompute_aggregates]]
    exact hiter _ _ _

/-- The structural invariant survives the aggregate recomputation pass. -/
theorem Built_recompute {S : List (List String)} {pre : List String}
    {t : FileSystemNode} (h : Built S pre t) :
    Built S pre (recompute_aggregates t) := by
  induction h with
  | mk pre nm isDir ext ch fl fs ft agg aggT dirty hroot hiff hnoch hdirpre hnames hch ih =>
    have hnames' : ((recompute_aggregates_list ch).map FileSystemNode.name).Nodup := by
      rw [recompute_aggregates_list_eq_map, List.map_map]
      have he : List.map (FileSystemNode.name ∘ recompute_aggregates) ch
          = List.map FileSystemNode.name ch :=
        List.map_congr_left (fun c _ => recompute_aggregates_name c)
      rw [he]
      exact hnames
    have hch' : ∀ c' ∈ recompute_aggregates_list ch,
        Built S (pre ++ [FileSystemNode.name c']) c' := by
      intro c' hc'
      rw [recompute_aggregates_list_eq_map] at hc'
      rcases List.mem_map.mp hc' with ⟨c, hc, rfl⟩
      rw [recompute_aggregates_name]
      exact ih c hc
    have hnoch' : isDir = false → recompute_aggregates_list ch = [] := by
      intro hf
      rw [hnoch hf]
      rfl
    cases isDir
    · rw [show recompute_aggregates (.mk nm false pre ext ch fl fs ft agg aggT dirty)
          = .mk nm false pre ext (recompute_aggregates_list ch) fl fs ft agg aggT dirty from by
        simp [recompute_aggregates]]
      exact Built.mk _ _ _ _ _ _ _ _ _ _ _ _ hroot hiff hnoch' hdirpre hnames' hch'
    · rw [show recompute_aggregates (.mk nm true pre ext ch fl fs ft agg aggT dirty)
          = .mk nm true pre ext (recompute_aggregates_list ch) fl fs ft
              (size_sum (recompute_aggregates_list ch))
              (dictMergeAll (tokens_list (recompute_aggregates_list ch))) false from by
        simp [recompute_aggregates]]
      exact Built.mk _ _ _ _ _ _ _ _ _ _ _ _ hroot hiff hnoch' hdirpre hnames' hch'

/-- Every node of a built tree is itself built at its stored position. -/
theorem Built_all_nodes {S : List (List String)} {pre : List String}
    {t : FileSystemNode} (h : Built S pre t) :
    ∀ n ∈ all_nodes t, Built S (FileSystemNode.relative_path n) n := by
  induction h with
  | mk pre nm isDir ext ch fl fs ft agg aggT dirty hroot hiff hnoch hdirpre hnames hch ih =>
    intro n hn
    rw [show all_nodes (.mk nm isDir pre ext ch fl fs ft agg aggT dirty)
        = .mk nm isDir pre ext ch fl fs ft agg aggT dirty :: all_nodes_list ch from rfl] at hn
    rcases List.mem_cons.mp hn with rfl | hn2
    · exact Built.mk _ _ _ _ _ _ _ _ _ _ _ _ hroot hiff hnoch hdirpre hnames hch
    · rcases (mem_all_nodes_list ch n).mp hn2 with ⟨c, hc, hnc⟩
      exact ih c hc n hnc

/-- **C7.** For every well-formed FileRecord map (non-empty relative paths,
pairwise distinct, no path a proper prefix of another), `_build` succeeds
and `get_file_paths()` on the built tree returns, as a set, exactly the set
of input relative paths — no more, no fewer; in particular the root node's
empty relative path never appears in the result, and no directory node's
relative path appears in the result. -/
theorem c7_round_trip (entries : List (List String × FileRecord))
    (hne : ∀ e ∈ entries, e.1 ≠ [])
    (hnodup : (entries.map Prod.fst).Nodup)
    (hpre : ∀ k1 ∈ entries.map Prod.fst, ∀ k2 ∈ entries.map Prod.fst,
      k1 <+: k2 → k1 = k2) :
    ∃ t, build_tree entries = some t ∧
      (∀ p, p ∈ get_file_paths t ↔ p ∈ entries.map Prod.fst) ∧
      [] ∉ get_file_paths t ∧
      (∀ n ∈ all_nodes t, FileSystemNode.is_directory n = true →
        FileSystemNode.relative_path n ∉ get_file_paths t) := by
  have hpw : List.Pairwise (fun k1 k2 => ¬(k1 <+: k2) ∧ ¬(k2 <+: k1))
      (entries.map Prod.fst) := by
    refine List.Pairwise.imp_of_mem ?_ hnodup
    intro a b ha hb hab
    exact ⟨fun hp => hab (hpre a ha b hb hp),
      fun hp => hab ((hpre b hb a ha hp).symm)⟩
  rcases build_fold_spec entries root_node [] Built_root_node hne
      (fun e _ m hm => absurd hm (List.not_mem_nil m)) hpw with
    ⟨t0, hfold, hB0, hpaths0⟩
  rw [List.nil_append] at hB0
  have hroots : get_file_paths root_node = [] := rfl
  have hbt : build_tree entries = some (recompute_aggregates t0) := by
    unfold build_tree
    rw [hfold, Option.map_some']
  have hB : Built (entries.map Prod.fst) [] (recompute_aggregates t0) :=
    Built_recompute hB0
  have hpaths : ∀ p, p ∈ get_file_paths (recompute_aggregates t0) ↔
      p ∈ entries.map Prod.fst := by
    intro p
    rw [mem_get_file_paths_recompute p t0, hpaths0 p, hroots]
    exact ⟨fun h => h.resolve_left (List.not_mem_nil p), Or.inr⟩
  have hnil : [] ∉ get_file_paths (recompute_aggregates t0) := by
    intro hmem
    rcases List.mem_map.mp ((hpaths []).mp hmem) with ⟨e, he, h⟩
    exact hne e he h
  refine ⟨recompute_aggregates t0, hbt, hpaths, hnil, ?_⟩
  intro n hn hdirn
  have hBn : Built (entries.map Prod.fst) (FileSystemNode.relative_path n) n :=
    Built_all_nodes hB n hn
  by_cases hrp : FileSystemNode.relative_path n = []
  · rw [hrp]
    exact hnil
  · intro hmem
    rcases Built_dir_strict hBn hdirn hrp with ⟨m, hm, hmp, hmne⟩
    exact hmne (hpre _ ((hpaths _).mp hmem) m hm hmp)

theorem c7_round_trip_witness :
    ∃ t, build_tree [(["a"], ⟨1, [], []⟩), (["b", "c"], ⟨2, [], []⟩)] = some t ∧
      (∀ p, p ∈ get_file_paths t ↔
        p ∈ ([(["a"], (⟨1, [], []⟩ : FileRecord)),
             (["b", "c"], ⟨2, [], []⟩)].map Prod.fst)) ∧
      [] ∉ get_file_paths t ∧
      (∀ n ∈ all_nodes t, FileSystemNode.is_directory n = true →
        FileSystemNode.relative_path n ∉ get_file_paths t) :=
  c7_round_trip _ (by decide) (by decide) (by decide)

end ProjectSummarizer
